import Mathlib

/-!
# Eulerian circuits by Hierholzer's algorithm (`Q1.cpp`)

A shallow embedding of the `Graph` class of `Q1.cpp` and a verification of
its behaviour.

* `vector<list<int>> adjList` is a `List (List Nat)`; the field `V` is kept
  next to it, as in the class.
* Every `operator[]` on `adjList` or `visited`, every `front()` and every
  `top()` is checked: an access outside the container is a `Fault`.
* The recursion of `dfs`, the `while` loop of `findEulerianCircuit` and the
  `while` loop of `generateRandomEvenDegreeGraph` are bounded by an explicit
  budget; running out of it is the fault `fuelExhausted`, so that a result
  `.ok _` always means the C++ code returned without undefined behaviour.
-/

namespace Q1

/-! ## Data model -/

/-- Ways in which a run of the embedded code can fail to produce a value. -/
inductive Fault where
  /-- `adjList[i]` or `visited[i]` with `i` outside the container. -/
  | indexOutOfRange
  /-- `top()` of an empty stack or `front()` of an empty list. -/
  | emptyRead
  /-- The step budget of the model ran out (recursion depth, loop
  iterations, or pseudo-random draws). -/
  | fuelExhausted
  deriving DecidableEq

/-- The class `Graph`: the vertex count `V` and the adjacency lists. -/
structure Graph where
  V : Nat
  adjList : List (List Nat)
  deriving DecidableEq

/-- The constructor `Graph(int V)`: `adjList.resize(V)` gives `V` empty lists. -/
def Graph.new (V : Nat) : Graph :=
  { V := V, adjList := List.replicate V [] }

/-- The method `addEdge(u, v)`: `adjList[u].push_back(v); adjList[v].push_back(u);`. -/
def Graph.addEdge (g : Graph) (u v : Nat) : Except Fault Graph :=
  if u < g.adjList.length then
    let adj1 := List.modify (fun l => l ++ [v]) u g.adjList
    if v < adj1.length then
      .ok { g with adjList := List.modify (fun l => l ++ [u]) v adj1 }
    else .error .indexOutOfRange
  else .error .indexOutOfRange

/-- The method `removeEdge(u, v)`: `adjList[u].remove(v); adjList[v].remove(u);`.
`std::list::remove(x)` erases every element equal to `x` and keeps the order
of the others. -/
def Graph.removeEdge (g : Graph) (u v : Nat) : Except Fault Graph :=
  if u < g.adjList.length then
    let adj1 := List.modify (fun l => l.filter (fun x => x != v)) u g.adjList
    if v < adj1.length then
      .ok { g with adjList := List.modify (fun l => l.filter (fun x => x != u)) v adj1 }
    else .error .indexOutOfRange
  else .error .indexOutOfRange

/-- The method `dfs(v, visited)`. The first argument bounds the recursion
depth. `visited[v] = true`, then for each `adjVertex` of `adjList[v]` in
order: recurse if `!visited[adjVertex]`. -/
def Graph.dfs (g : Graph) : Nat → Nat → List Bool → Except Fault (List Bool)
  | 0, _, _ => .error .fuelExhausted
  | fuel + 1, v, visited =>
    if v < visited.length then
      match g.adjList[v]? with
      | none => .error .indexOutOfRange
      | some nbrs =>
        nbrs.foldlM (fun vis adjVertex =>
          match vis[adjVertex]? with
          | none => .error .indexOutOfRange
          | some true => .ok vis
          | some false => g.dfs fuel adjVertex vis) (visited.set v true)
    else .error .indexOutOfRange

/-- The loop `for (i = 0; i < V; ++i) if (!adjList[i].empty()) { x = i; break; }`
that occurs in `isConnected` (with `x` initially `-1`, here `none`) and in
`findEulerianCircuit` (with `x` initially `0`). The first argument counts the
iterations left, the second is `i`. -/
def Graph.firstNonEmpty (g : Graph) : Nat → Nat → Except Fault (Option Nat)
  | 0, _ => .ok none
  | n + 1, i =>
    match g.adjList[i]? with
    | none => .error .indexOutOfRange
    | some l => if l.isEmpty then g.firstNonEmpty n (i + 1) else .ok (some i)

/-- The last loop of `isConnected`:
`for (i = 0; i < V; ++i) if (!visited[i] && !adjList[i].empty()) return false;`
followed by `return true`. -/
def Graph.allNonZeroVisited (g : Graph) (visited : List Bool) : Nat → Nat → Except Fault Bool
  | 0, _ => .ok true
  | n + 1, i =>
    match visited[i]? with
    | none => .error .indexOutOfRange
    | some true => g.allNonZeroVisited visited n (i + 1)
    | some false =>
      match g.adjList[i]? with
      | none => .error .indexOutOfRange
      | some l => if l.isEmpty then g.allNonZeroVisited visited n (i + 1) else .ok false

/-- The method `isConnected()`; `fuel` bounds the recursion depth of `dfs`.
The method writes neither `V` nor `adjList`, so it is a function of the graph. -/
def Graph.isConnected (fuel : Nat) (g : Graph) : Except Fault Bool :=
  match g.firstNonEmpty g.V 0 with
  | .error e => .error e
  | .ok none => .ok true
  | .ok (some nonZeroDegreeVertex) =>
    match g.dfs fuel nonZeroDegreeVertex (List.replicate g.V false) with
    | .error e => .error e
    | .ok visited => g.allNonZeroVisited visited g.V 0

/-- The loop of `hasEvenDegree`:
`for (i = 0; i < V; ++i) if (adjList[i].size() % 2 != 0) return false;`
followed by `return true`. -/
def Graph.hasEvenDegreeFrom (g : Graph) : Nat → Nat → Except Fault Bool
  | 0, _ => .ok true
  | n + 1, i =>
    match g.adjList[i]? with
    | none => .error .indexOutOfRange
    | some l => if l.length % 2 != 0 then .ok false else g.hasEvenDegreeFrom n (i + 1)

/-- The method `hasEvenDegree()`. -/
def Graph.hasEvenDegree (g : Graph) : Except Fault Bool :=
  g.hasEvenDegreeFrom g.V 0

/-- The method `edgeExists(u, v)`: is `v` an element of `adjList[u]`. -/
def Graph.edgeExists (g : Graph) (u v : Nat) : Except Fault Bool :=
  match g.adjList[u]? with
  | none => .error .indexOutOfRange
  | some l => .ok (l.any (fun neighbor => neighbor == v))

/-! ## Hierholzer's loop -/

/-- The local state of the `while` loop of `findEulerianCircuit`, together
with the graph it mutates. `currentPath` is the stack, its head the top;
`circuit` is the vector in `push_back` order. -/
structure HState where
  g : Graph
  currentPath : List Nat
  circuit : List Nat
  currentVertex : Nat
  deriving DecidableEq

/-- One iteration of the body of `while (!currentPath.empty())`. -/
def hierholzerStep (s : HState) : Except Fault HState :=
  match s.g.adjList[s.currentVertex]? with
  | none => .error .indexOutOfRange
  | some (nextVertex :: _) =>
    match s.g.removeEdge s.currentVertex nextVertex with
    | .error e => .error e
    | .ok g1 =>
      .ok { g := g1, currentPath := s.currentVertex :: s.currentPath,
            circuit := s.circuit, currentVertex := nextVertex }
  | some [] =>
    match s.currentPath with
    | [] => .error .emptyRead
    | top :: rest =>
      .ok { g := s.g, currentPath := rest,
            circuit := s.circuit ++ [s.currentVertex], currentVertex := top }

/-- The loop `while (!currentPath.empty()) { ... }`, at most `fuel` tests of
its condition. -/
def hierholzerLoop : Nat → HState → Except Fault HState
  | 0, _ => .error .fuelExhausted
  | fuel + 1, s =>
    if s.currentPath.isEmpty then .ok s
    else
      match hierholzerStep s with
      | .error e => .error e
      | .ok s1 => hierholzerLoop fuel s1

/-- What `findEulerianCircuit` writes to standard output. -/
inductive Report where
  /-- "Graph is not connected. No Eulerian Circuit exists." -/
  | notConnected
  /-- "Graph has vertices with odd degree. No Eulerian Circuit exists." -/
  | oddDegree
  /-- "Eulerian Circuit: c0 -> c1 -> ... ": the vector `circuit`, printed
  from index `0` upwards. -/
  | circuit (c : List Nat)
  deriving DecidableEq

/-- The method `findEulerianCircuit()`: the report printed and the graph as
the method leaves it. `fuel` bounds both the depth of `dfs` and the number of
iterations of the `while` loop. -/
def Graph.findEulerianCircuit (fuel : Nat) (g : Graph) : Except Fault (Report × Graph) :=
  match g.isConnected fuel with
  | .error e => .error e
  | .ok false => .ok (.notConnected, g)
  | .ok true =>
    match g.hasEvenDegree with
    | .error e => .error e
    | .ok false => .ok (.oddDegree, g)
    | .ok true =>
      match g.firstNonEmpty g.V 0 with
      | .error e => .error e
      | .ok start? =>
        let startVertex := start?.getD 0
        match hierholzerLoop fuel
            { g := g, currentPath := [startVertex], circuit := [],
              currentVertex := startVertex } with
        | .error e => .error e
        | .ok s => .ok (.circuit s.circuit, s.g)

/-! ## Graph generation -/

/-- Step 1 of `generateRandomEvenDegreeGraph`:
`for (i = 0; i < V; ++i) { addEdge(i, (i + 1) % V); edgeCount++; }`.
The first argument counts the iterations left, the second is `i`. -/
def Graph.cycleLoop : Nat → Nat → Graph → Except Fault Graph
  | 0, _, g => .ok g
  | n + 1, i, g =>
    match g.addEdge i ((i + 1) % g.V) with
    | .error e => .error e
    | .ok g1 => Graph.cycleLoop n (i + 1) g1

/-- Step 2 of `generateRandomEvenDegreeGraph`:
`while (edgeCount < numEdges) { u = rand() % V; v = rand() % V;
if (u != v && !edgeExists(u, v)) { addEdge(u, v); edgeCount++; } }`.
The results of the successive calls of `rand()` are the list `draws`; when
the loop wants a draw and none is left the run has not finished. -/
def Graph.randomLoop (numEdges : Int) : List Nat → Nat → Graph → Except Fault Graph
  | r1 :: r2 :: rest, edgeCount, g =>
    if (edgeCount : Int) < numEdges then
      let u := r1 % g.V
      let v := r2 % g.V
      if u != v then
        match g.edgeExists u v with
        | .error e => .error e
        | .ok true => Graph.randomLoop numEdges rest edgeCount g
        | .ok false =>
          match g.addEdge u v with
          | .error e => .error e
          | .ok g1 => Graph.randomLoop numEdges rest (edgeCount + 1) g1
      else Graph.randomLoop numEdges rest edgeCount g
    else .ok g
  | _, edgeCount, g =>
    if (edgeCount : Int) < numEdges then .error .fuelExhausted else .ok g

/-- The method `generateRandomEvenDegreeGraph(numEdges, seed)`; the seed
enters only through the sequence `draws` of values that `rand()` returns. -/
def Graph.generateRandomEvenDegreeGraph (g : Graph) (numEdges : Int) (draws : List Nat) :
    Except Fault Graph :=
  match Graph.cycleLoop g.V 0 g with
  | .error e => .error e
  | .ok g1 => Graph.randomLoop numEdges draws g.V g1

/-! ## Vocabulary of the specification -/

/-- The neighbour list of vertex `i` (empty outside the vector). -/
def Graph.adj (g : Graph) (i : Nat) : List Nat :=
  (g.adjList[i]?).getD []

/-- The class invariant: `adjList` has `V` entries and every label in it is
a vertex. -/
def Graph.WF (g : Graph) : Prop :=
  g.adjList.length = g.V ∧ ∀ l ∈ g.adjList, ∀ w ∈ l, w < g.V

/-- Symmetry with matching multiplicities. -/
def Graph.Symmetric (g : Graph) : Prop :=
  ∀ u < g.V, ∀ v < g.V, (g.adj u).count v = (g.adj v).count u

/-- Every vertex has a neighbour list of even length. -/
def Graph.EvenDegrees (g : Graph) : Prop :=
  ∀ i < g.V, (g.adj i).length % 2 = 0

/-- The label `v` occurs in the neighbour list of `u`. -/
def Graph.Adj (g : Graph) (u v : Nat) : Prop :=
  v ∈ g.adj u

/-- A path from `u` to `v`, possibly of length `0`. -/
def Graph.Reach (g : Graph) : Nat → Nat → Prop :=
  Relation.ReflTransGen g.Adj

/-- The sum of the lengths of all neighbour lists. -/
def Graph.totalDegree (g : Graph) : Nat :=
  (g.adjList.map List.length).sum

/-- The number `E` of edges, with multiplicity: half the total degree. -/
def Graph.numEdges (g : Graph) : Nat :=
  g.totalDegree / 2

instance (g : Graph) : Decidable g.WF := by
  unfold Graph.WF; infer_instance

instance (g : Graph) : Decidable g.Symmetric := by
  unfold Graph.Symmetric; infer_instance

instance (g : Graph) : Decidable g.EvenDegrees := by
  unfold Graph.EvenDegrees; infer_instance

instance (g : Graph) (u v : Nat) : Decidable (g.Adj u v) := by
  unfold Graph.Adj; infer_instance

/-! ## Auxiliary definitions for the proofs -/

/-- What a call `dfs(v, visited)` guarantees about the vector it leaves. -/
def Graph.DfsPost (g : Graph) (v : Nat) (vis vis1 : List Bool) : Prop :=
  vis1.length = g.V ∧
  (∀ x : Nat, vis[x]? = some true → vis1[x]? = some true) ∧
  vis1[v]? = some true ∧
  (∀ x : Nat, vis1[x]? = some true → vis[x]? = some false →
    g.Reach v x ∧ ∀ y ∈ g.adj x, vis1[y]? = some true)

/-- The invariant of the `while` loop that excludes every fault. -/
def HState.Safe (s : HState) : Prop :=
  s.g.WF ∧ s.currentVertex < s.g.V ∧ ∀ x ∈ s.currentPath, x < s.g.V

/-- The quantity that every iteration of the `while` loop lowers. -/
def HState.measure (s : HState) : Nat :=
  2 * s.g.totalDegree + s.currentPath.length

/-- A budget that suffices for `findEulerianCircuit`: the recursion of `dfs`
is at most `V` deep and the loop runs at most `2E + 1 + 1` times, where the
total degree is `2E`. -/
def Graph.fuelBound (g : Graph) : Nat :=
  g.V + 2 * g.totalDegree + 2

/-- The neighbour list of vertex `i` in the cycle `0-1, 1-2, …, (V-1)-0`, in the
order in which step 1 of the generator inserts the entries. -/
def cycleAdj (V i : Nat) : List Nat :=
  if i = 0 then [1, V - 1] else [i - 1, (i + 1) % V]

/-- The cycle on `V` vertices. -/
def cycleGraph (V : Nat) : Graph :=
  { V := V, adjList := (List.range V).map (cycleAdj V) }

/-- The neighbour lists after `i` iterations of step 1: the path `0-1-…-i`. -/
def pathAdj (i j : Nat) : List Nat :=
  if j < i then (if j = 0 then [1] else [j - 1, j + 1])
  else if j = i then (if i = 0 then [] else [i - 1])
  else []

/-- The neighbour lists of the cycle after the walk has gone `0, 1, …, k`
(`1 ≤ k < V`). -/
def walkAdj (V k j : Nat) : List Nat :=
  if j = 0 then [V - 1]
  else if j < k then []
  else if j = k then [(k + 1) % V]
  else cycleAdj V j

/-- The edges that a vertex sequence walks along: its consecutive pairs, unordered. -/
def circuitEdges : List Nat → List (Sym2 Nat)
  | a :: b :: t => s(a, b) :: circuitEdges (b :: t)
  | _ => []

/-- The edges `0-1, 1-2, …, (V-1)-0` of the cycle on `V` vertices. -/
def cycleEdges (V : Nat) : List (Sym2 Nat) :=
  (List.range V).map (fun i => s(i, (i + 1) % V))

/-- The multigraph on two vertices with two parallel edges `0-1`; it is what
`generateRandomEvenDegreeGraph` builds on `Graph(2)`. -/
def doubleEdge : Graph :=
  { V := 2, adjList := [[1, 1], [0, 0]] }

/-- Two disjoint edges `0-1` and `2-3`. -/
def twoEdges : Graph :=
  { V := 4, adjList := [[1], [0], [3], [2]] }

/-- A single edge `0-1`. -/
def oneEdge : Graph :=
  { V := 2, adjList := [[1], [0]] }

/-- The triangle `0-1, 1-2, 2-0`. -/
def triangle : Graph :=
  { V := 3, adjList := [[1, 2], [0, 2], [1, 0]] }

/-! ## Command line -/

/-- What one call of `getopt(argc, argv, "v:e:s:")` returns before it returns
`-1`: one of the three option letters, together with the value of
`atoi(optarg)`, or anything else (`'?'` for an unknown option or a missing
argument), which is the `default` case of the `switch`. -/
inductive Opt where
  | v (n : Int)
  | e (n : Int)
  | s (n : Int)
  | other
  deriving DecidableEq

/-- The status passed to `exit` on a rejected command line. -/
def EXIT_FAILURE : Nat := 1

/-- The three variables that `main` hands to `processArgs` by reference:
`int vertices`, `int edges`, `unsigned seed`. -/
structure Args where
  vertices : Int
  edges : Int
  seed : Nat
  deriving DecidableEq

/-- The values `main` gives them before the call: `vertices = 0, edges = 0`,
`seed = 0`. -/
def mainDefaults : Args :=
  { vertices := 0, edges := 0, seed := 0 }

/-- The `while` loop of `processArgs` over the successive results of `getopt`.
`seed = atoi(optarg)` converts the `int` to `unsigned`, that is modulo `2^32`.
An error is the status with which the process exits. -/
def processArgsLoop : List Opt → Args → Except Nat Args
  | [], a => .ok a
  | Opt.v n :: rest, a => processArgsLoop rest { a with vertices := n }
  | Opt.e n :: rest, a => processArgsLoop rest { a with edges := n }
  | Opt.s n :: rest, a => processArgsLoop rest { a with seed := (n % 2 ^ 32).toNat }
  | Opt.other :: _, _ => .error EXIT_FAILURE

/-- The function `processArgs`: the loop, then
`if (vertices <= 0 || edges < 0 || seed <= 0) exit(EXIT_FAILURE);`. -/
def processArgs (opts : List Opt) (a : Args) : Except Nat Args :=
  match processArgsLoop opts a with
  | .error code => .error code
  | .ok a1 =>
    if a1.vertices ≤ 0 ∨ a1.edges < 0 ∨ a1.seed ≤ 0 then .error EXIT_FAILURE
    else .ok a1

/-- No self-loop and no parallel edge: no list has a repeated entry and no
vertex is in its own list. -/
def Graph.Simple (g : Graph) : Prop :=
  ∀ u < g.V, (g.adj u).Nodup ∧ u ∉ g.adj u

instance (g : Graph) : Decidable g.Simple := by
  unfold Graph.Simple; infer_instance

/-- A simple undirected graph in the representation of the class: `V` lists,
all labels vertices, symmetric, no self-loop and no parallel edge. -/
def Graph.Good (g : Graph) : Prop :=
  g.WF ∧ g.Symmetric ∧ g.Simple

instance (g : Graph) : Decidable g.Good := by
  unfold Graph.Good; infer_instance

/-- The vertices that the loop of `findEulerianCircuit` has met so far: the
current one, those on the path stack and those in the output list. -/
def HState.seen (s : HState) : List Nat :=
  s.currentVertex :: (s.currentPath ++ s.circuit)

/-- What the loop of `findEulerianCircuit` keeps true about the edges it has
removed, relative to the graph `g0` and the vertex `start` it was started on. -/
def HState.Consumes (g0 : Graph) (start : Nat) (s : HState) : Prop :=
  s.g.V = g0.V ∧ s.g.adjList.length = g0.adjList.length ∧
  (∀ x ∈ s.circuit, s.g.adj x = []) ∧
  (∀ x y, y ∈ g0.adj x → y ∈ s.g.adj x ∨ y ∈ s.seen) ∧
  (∀ x y, y ∈ s.g.adj x → y ∈ g0.adj x) ∧
  ((∃ pre, s.currentVertex :: s.currentPath = pre ++ [start, start]) ∨
    (s.currentPath = [] ∧ s.currentVertex = start ∧ start ∈ s.circuit))

/-- The edge between the last vertex of the output list `c` and the vertex `a`
from which that vertex had been reached; none while `c` is empty. -/
def pendingEdge (c : List Nat) (a : Nat) : List (Sym2 Nat) :=
  match c.getLast? with
  | none => []
  | some last => [s(last, a)]

/-- The walk that the path stack records, from the current vertex back to the
start: the current vertex followed by the stack without its bottom entry. -/
def HState.chain (s : HState) : List Nat :=
  s.currentVertex :: s.currentPath.dropLast

/-- What the loop of `findEulerianCircuit` keeps true on a simple graph `g0`
with even degrees, started at `start`. While the stack is not empty: the edges
walked by the output list, the pending edge, the edges walked by the stack and
the edges still in the graph make up the edges of `g0`; every remaining degree
is even except at the current vertex and at the anchor `a` of the pending edge.
Once the stack is empty: the output list starts and ends at `start` and walks
exactly the edges removed. -/
def HState.Trail (g0 : Graph) (start : Nat) (s : HState) : Prop :=
  (s.currentPath ≠ [] ∧ ∃ a,
    s.g.Good ∧
    (∀ u v, (circuitEdges s.circuit).count s(u, v) + (pendingEdge s.circuit a).count s(u, v) +
      (circuitEdges s.chain).count s(u, v) + (s.g.adj u).count v = (g0.adj u).count v) ∧
    (∀ x, ((s.g.adj x).length + (if x = s.currentVertex then 1 else 0) +
      (if x = a then 1 else 0)) % 2 = 0) ∧
    (s.circuit = [] → a = start) ∧
    (s.circuit ≠ [] → s.circuit.head? = some start) ∧
    2 * (s.circuit.length + s.chain.length) + s.g.totalDegree = g0.totalDegree + 2 ∧
    (∃ pre, s.currentVertex :: s.currentPath = pre ++ [start, start])) ∨
  (s.currentPath = [] ∧ s.circuit.head? = some start ∧ s.circuit.getLast? = some start ∧
    (∀ u v, (circuitEdges s.circuit).count s(u, v) + (s.g.adj u).count v = (g0.adj u).count v) ∧
    2 * s.circuit.length + s.g.totalDegree = g0.totalDegree + 2)

/-! ## Access lemmas -/

theorem Graph.getElem?_eq_adj (g : Graph) {i : Nat} (h : i < g.adjList.length) :
    g.adjList[i]? = some (g.adj i) := by
  unfold Graph.adj
  rw [List.getElem?_eq_getElem h]
  rfl

theorem Graph.adj_eq_nil_of_le (g : Graph) {i : Nat} (h : g.adjList.length ≤ i) :
    g.adj i = [] := by
  unfold Graph.adj
  rw [List.getElem?_eq_none h]
  rfl

theorem Graph.adj_mem_adjList (g : Graph) {i : Nat} (h : i < g.adjList.length) :
    g.adj i ∈ g.adjList := by
  have h1 := g.getElem?_eq_adj h
  exact List.getElem?_mem h1

theorem Graph.WF.lt_of_mem_adj {g : Graph} (hwf : g.WF) {u w : Nat} (h : w ∈ g.adj u) :
    w < g.V := by
  by_cases hu : u < g.adjList.length
  · exact hwf.2 _ (g.adj_mem_adjList hu) w h
  · rw [g.adj_eq_nil_of_le (Nat.le_of_not_lt hu)] at h
    cases h

theorem Graph.WF.src_lt_of_mem_adj {g : Graph} (hwf : g.WF) {u w : Nat} (h : w ∈ g.adj u) :
    u < g.V := by
  by_cases hu : u < g.adjList.length
  · rw [← hwf.1]; exact hu
  · rw [g.adj_eq_nil_of_le (Nat.le_of_not_lt hu)] at h
    cases h

/-! ## The scanning loops -/

theorem Graph.firstNonEmpty_spec (g : Graph) :
    ∀ n i, i + n ≤ g.adjList.length →
      (g.firstNonEmpty n i = .ok none ∧ ∀ j, i ≤ j → j < i + n → g.adj j = []) ∨
      (∃ k, g.firstNonEmpty n i = .ok (some k) ∧ i ≤ k ∧ k < i + n ∧ g.adj k ≠ [] ∧
        ∀ j, i ≤ j → j < k → g.adj j = []) := by
  intro n
  induction n with
  | zero =>
    intro i _
    left
    refine ⟨rfl, ?_⟩
    intro j h1 h2
    omega
  | succ n ih =>
    intro i hi
    have hlt : i < g.adjList.length := by omega
    unfold Graph.firstNonEmpty
    rw [g.getElem?_eq_adj hlt]
    by_cases he : g.adj i = []
    · simp only [he, List.isEmpty_nil, if_true]
      rcases ih (i + 1) (by omega) with ⟨h1, h2⟩ | ⟨k, h1, h2, h3, h4, h5⟩
      · left
        refine ⟨h1, ?_⟩
        intro j hj1 hj2
        by_cases hji : j = i
        · rw [hji]; exact he
        · exact h2 j (by omega) (by omega)
      · right
        refine ⟨k, h1, by omega, by omega, h4, ?_⟩
        intro j hj1 hj2
        by_cases hji : j = i
        · rw [hji]; exact he
        · exact h5 j (by omega) hj2
    · right
      have hne : (g.adj i).isEmpty = false := by
        cases hl : g.adj i with
        | nil => exact absurd hl he
        | cons a t => rfl
      simp only [hne]
      refine ⟨i, by simp, le_refl _, by omega, he, ?_⟩
      intro j hj1 hj2
      omega

theorem Graph.hasEvenDegreeFrom_spec (g : Graph) :
    ∀ n i, i + n ≤ g.adjList.length →
      ∃ b, g.hasEvenDegreeFrom n i = .ok b ∧
        (b = true ↔ ∀ j, i ≤ j → j < i + n → (g.adj j).length % 2 = 0) := by
  intro n
  induction n with
  | zero =>
    intro i _
    refine ⟨true, rfl, ?_⟩
    simp only [true_iff]
    intro j h1 h2
    omega
  | succ n ih =>
    intro i hi
    have hlt : i < g.adjList.length := by omega
    unfold Graph.hasEvenDegreeFrom
    rw [g.getElem?_eq_adj hlt]
    by_cases he : (g.adj i).length % 2 = 0
    · obtain ⟨b, hb1, hb2⟩ := ih (i + 1) (by omega)
      refine ⟨b, ?_, ?_⟩
      · simp [he, hb1]
      · rw [hb2]
        constructor
        · intro h j hj1 hj2
          by_cases hji : j = i
          · rw [hji]; exact he
          · exact h j (by omega) (by omega)
        · intro h j hj1 hj2
          exact h j (by omega) (by omega)
    · refine ⟨false, ?_, ?_⟩
      · simp [he]
      · simp only [Bool.false_eq_true, false_iff]
        intro h
        exact he (h i (le_refl _) (by omega))

theorem Graph.allNonZeroVisited_spec (g : Graph) (visited : List Bool) :
    ∀ n i, i + n ≤ g.adjList.length → i + n ≤ visited.length →
      ∃ b, g.allNonZeroVisited visited n i = .ok b ∧
        (b = true ↔ ∀ j, i ≤ j → j < i + n → g.adj j ≠ [] → visited[j]? = some true) := by
  intro n
  induction n with
  | zero =>
    intro i _ _
    refine ⟨true, rfl, ?_⟩
    simp only [true_iff]
    intro j h1 h2
    omega
  | succ n ih =>
    intro i hi hv
    have hlt : i < g.adjList.length := by omega
    have hlt2 : i < visited.length := by omega
    obtain ⟨b, hb1, hb2⟩ := ih (i + 1) (by omega) (by omega)
    have hrest : ∀ (P : Nat → Prop), P i → ((∀ j, i + 1 ≤ j → j < i + 1 + n → P j) ↔
        (∀ j, i ≤ j → j < i + (n + 1) → P j)) := by
      intro P hP
      constructor
      · intro h j hj1 hj2
        by_cases hji : j = i
        · rw [hji]; exact hP
        · exact h j (by omega) (by omega)
      · intro h j hj1 hj2
        exact h j (by omega) (by omega)
    unfold Graph.allNonZeroVisited
    rw [List.getElem?_eq_getElem hlt2]
    cases hvi : visited[i] with
    | true =>
      refine ⟨b, by simp [hb1], ?_⟩
      rw [hb2]
      apply hrest (fun j => g.adj j ≠ [] → visited[j]? = some true)
      intro _
      rw [List.getElem?_eq_getElem hlt2, hvi]
    | false =>
      simp only []
      rw [g.getElem?_eq_adj hlt]
      by_cases he : g.adj i = []
      · refine ⟨b, by simp [he, hb1], ?_⟩
        rw [hb2]
        apply hrest (fun j => g.adj j ≠ [] → visited[j]? = some true)
        intro h
        exact absurd he h
      · have hne : (g.adj i).isEmpty = false := by
          cases hl : g.adj i with
          | nil => exact absurd hl he
          | cons a t => rfl
        refine ⟨false, by simp [hne], ?_⟩
        simp only [Bool.false_eq_true, false_iff]
        intro h
        have := h i (le_refl _) (by omega) he
        rw [List.getElem?_eq_getElem hlt2, hvi] at this
        cases this

/-! ## Depth-first search -/

theorem count_false_pos {vis : List Bool} {v : Nat} (h : vis[v]? = some false) :
    0 < vis.count false :=
  List.count_pos_iff.2 (List.getElem?_mem h)

theorem count_false_set {vis : List Bool} {v : Nat} (h : vis[v]? = some false) :
    (vis.set v true).count false + 1 = vis.count false := by
  obtain ⟨hv, hval⟩ := List.getElem?_eq_some.1 h
  have hpos := count_false_pos h
  rw [List.count_set _ _ _ _ hv]
  simp [hval]
  omega

theorem count_false_le_of_mono : ∀ (a b : List Bool), a.length = b.length →
    (∀ x : Nat, a[x]? = some true → b[x]? = some true) → b.count false ≤ a.count false := by
  intro a
  induction a with
  | nil =>
    intro b hl _
    cases b with
    | nil => exact le_refl _
    | cons y ys => simp at hl
  | cons x xs ih =>
    intro b hl hm
    cases b with
    | nil => simp at hl
    | cons y ys =>
      have hl2 : xs.length = ys.length := by simpa using hl
      have htail := ih ys hl2 (fun n hn => by simpa using hm (n + 1) (by simpa using hn))
      have hhead := hm 0
      simp only [List.getElem?_cons_zero, Option.some.injEq] at hhead
      rw [List.count_cons, List.count_cons]
      cases x <;> cases y <;> simp_all
      omega

theorem Graph.dfs_loop_spec (g : Graph) (fuel : Nat)
    (F : List Bool → Nat → Except Fault (List Bool))
    (hF : ∀ vis w, F vis w =
      match vis[w]? with
      | none => .error .indexOutOfRange
      | some true => .ok vis
      | some false => g.dfs fuel w vis)
    (ih : ∀ v vis, vis.length = g.V → v < g.V → vis[v]? = some false →
      vis.count false ≤ fuel → ∃ vis1, g.dfs fuel v vis = .ok vis1 ∧ g.DfsPost v vis vis1) :
    ∀ (ws : List Nat) (vis : List Bool), (∀ w ∈ ws, w < g.V) → vis.length = g.V →
      vis.count false ≤ fuel →
      ∃ vis1, ws.foldlM F vis = .ok vis1 ∧ vis1.length = g.V ∧
        (∀ x : Nat, vis[x]? = some true → vis1[x]? = some true) ∧
        (∀ w ∈ ws, vis1[w]? = some true) ∧
        (∀ x : Nat, vis1[x]? = some true → vis[x]? = some false →
          (∃ w ∈ ws, g.Reach w x) ∧ ∀ y ∈ g.adj x, vis1[y]? = some true) := by
  intro ws
  induction ws with
  | nil =>
    intro vis _ hlen _
    refine ⟨vis, rfl, hlen, fun _ h => h, ?_, ?_⟩
    · intro w hw
      cases hw
    · intro x h1 h2
      rw [h1] at h2
      cases h2
  | cons w ws ihws =>
    intro vis hws hlen hcount
    have hw : w < vis.length := by
      rw [hlen]
      exact hws w (List.mem_cons_self _ _)
    have hws1 : ∀ w1 ∈ ws, w1 < g.V := fun w1 h => hws w1 (List.mem_cons_of_mem _ h)
    rw [List.foldlM_cons, hF]
    cases hvw : vis[w] with
    | true =>
      have hget : vis[w]? = some true := by rw [List.getElem?_eq_getElem hw, hvw]
      rw [hget]
      obtain ⟨vis1, h1, h2, h3, h4, h5⟩ := ihws vis hws1 hlen hcount
      refine ⟨vis1, h1, h2, h3, ?_, ?_⟩
      · intro w1 hw1
        rcases List.mem_cons.1 hw1 with rfl | hw1
        · exact h3 _ hget
        · exact h4 w1 hw1
      · intro x hx1 hx2
        obtain ⟨⟨w1, hw1, hr⟩, hc⟩ := h5 x hx1 hx2
        exact ⟨⟨w1, List.mem_cons_of_mem _ hw1, hr⟩, hc⟩
    | false =>
      have hget : vis[w]? = some false := by rw [List.getElem?_eq_getElem hw, hvw]
      rw [hget]
      obtain ⟨visA, hA, hAlen, hAmono, hAw, hAnew⟩ :=
        ih w vis hlen (hws w (List.mem_cons_self _ _)) hget hcount
      have hAcount : visA.count false ≤ fuel :=
        le_trans (count_false_le_of_mono vis visA (by rw [hlen, hAlen]) hAmono) hcount
      obtain ⟨vis1, h1, h2, h3, h4, h5⟩ := ihws visA hws1 hAlen hAcount
      refine ⟨vis1, ?_, h2, fun x hx => h3 x (hAmono x hx), ?_, ?_⟩
      · simp only [hA]
        exact h1
      · intro w1 hw1
        rcases List.mem_cons.1 hw1 with rfl | hw1
        · exact h3 _ hAw
        · exact h4 w1 hw1
      · intro x hx1 hx2
        have hxlt : x < visA.length := by
          rw [hAlen, ← hlen]
          exact (List.getElem?_eq_some.1 hx2).1
        cases hAx : visA[x] with
        | true =>
          have hAx1 : visA[x]? = some true := by rw [List.getElem?_eq_getElem hxlt, hAx]
          obtain ⟨hr, hc⟩ := hAnew x hAx1 hx2
          exact ⟨⟨w, List.mem_cons_self _ _, hr⟩, fun y hy => h3 y (hc y hy)⟩
        | false =>
          have hAx1 : visA[x]? = some false := by rw [List.getElem?_eq_getElem hxlt, hAx]
          obtain ⟨⟨w1, hw1, hr⟩, hc⟩ := h5 x hx1 hAx1
          exact ⟨⟨w1, List.mem_cons_of_mem _ hw1, hr⟩, hc⟩

theorem Graph.dfs_spec (g : Graph) (hwf : g.WF) :
    ∀ fuel v vis, vis.length = g.V → v < g.V → vis[v]? = some false →
      vis.count false ≤ fuel → ∃ vis1, g.dfs fuel v vis = .ok vis1 ∧ g.DfsPost v vis vis1 := by
  intro fuel
  induction fuel with
  | zero =>
    intro v vis _ _ hv hc
    have := count_false_pos hv
    omega
  | succ fuel ih =>
    intro v vis hlen hv hvis hcount
    have hvl : v < vis.length := by rw [hlen]; exact hv
    have hva : v < g.adjList.length := by rw [hwf.1]; exact hv
    have hset : (vis.set v true).count false ≤ fuel := by
      have := count_false_set hvis
      omega
    have hsetlen : (vis.set v true).length = g.V := by rw [List.length_set]; exact hlen
    obtain ⟨vis1, h1, h2, h3, h4, h5⟩ :=
      g.dfs_loop_spec fuel _ (fun _ _ => rfl) ih (g.adj v) (vis.set v true)
        (fun w hw => hwf.lt_of_mem_adj hw) hsetlen hset
    have hmono0 : ∀ x : Nat, vis[x]? = some true → (vis.set v true)[x]? = some true := by
      intro x hx
      rw [List.getElem?_set]
      split
      · simp [hvl]
      · exact hx
    have hvset : (vis.set v true)[v]? = some true := by
      rw [List.getElem?_set]
      simp [hvl]
    refine ⟨vis1, ?_, h2, fun x hx => h3 x (hmono0 x hx), h3 v hvset, ?_⟩
    · unfold Graph.dfs
      rw [if_pos hvl, g.getElem?_eq_adj hva]
      exact h1
    · intro x hx1 hx2
      by_cases hxv : x = v
      · subst hxv
        exact ⟨Relation.ReflTransGen.refl, fun y hy => h4 y hy⟩
      · have hxs : (vis.set v true)[x]? = some false := by
          rw [List.getElem?_set, if_neg (Ne.symm hxv)]
          exact hx2
        obtain ⟨⟨w, hw, hr⟩, hc⟩ := h5 x hx1 hxs
        exact ⟨Relation.ReflTransGen.head hw hr, hc⟩

/-! ## The connectivity check -/

theorem Graph.WF.reach_lt {g : Graph} (hwf : g.WF) {u x : Nat} (hu : u < g.V)
    (h : g.Reach u x) : x < g.V := by
  induction h with
  | refl => exact hu
  | tail _ hstep _ => exact hwf.lt_of_mem_adj hstep

theorem Graph.adj_symm {g : Graph} (hwf : g.WF) (hsym : g.Symmetric) {u v : Nat}
    (h : g.Adj u v) : g.Adj v u := by
  unfold Graph.Adj at *
  have hu := hwf.src_lt_of_mem_adj h
  have hv := hwf.lt_of_mem_adj h
  have hc := hsym u hu v hv
  have hpos : 0 < (g.adj u).count v := List.count_pos_iff.2 h
  exact List.count_pos_iff.1 (by omega)

theorem Graph.reach_symm {g : Graph} (hwf : g.WF) (hsym : g.Symmetric) {u v : Nat}
    (h : g.Reach u v) : g.Reach v u :=
  Relation.ReflTransGen.symmetric (fun _ _ hxy => Graph.adj_symm hwf hsym hxy) h

theorem getElem?_replicate_false {n x : Nat} (h : x < n) :
    (List.replicate n false)[x]? = some false := by
  rw [List.getElem?_eq_getElem (by simpa using h)]
  simp

/-- The result of `isConnected` on a well-formed graph, in terms of paths. -/
theorem Graph.isConnected_spec (g : Graph) (hwf : g.WF) (fuel : Nat) (hfuel : g.V ≤ fuel) :
    (g.firstNonEmpty g.V 0 = .ok none ∧ (∀ j < g.V, g.adj j = []) ∧
      g.isConnected fuel = .ok true) ∨
    (∃ nz vis b, g.firstNonEmpty g.V 0 = .ok (some nz) ∧
      nz < g.V ∧ g.adj nz ≠ [] ∧ (∀ j < nz, g.adj j = []) ∧
      g.dfs fuel nz (List.replicate g.V false) = .ok vis ∧
      (∀ x : Nat, vis[x]? = some true ↔ g.Reach nz x) ∧
      g.isConnected fuel = .ok b ∧
      (b = true ↔ ∀ j < g.V, g.adj j ≠ [] → g.Reach nz j)) := by
  rcases g.firstNonEmpty_spec g.V 0 (by rw [hwf.1]; omega) with
    ⟨h1, h2⟩ | ⟨nz, h1, _, h3, h4, h5⟩
  · left
    refine ⟨h1, fun j hj => h2 j (Nat.zero_le _) (by omega), ?_⟩
    unfold Graph.isConnected
    rw [h1]
  · right
    have hnz : nz < g.V := by omega
    obtain ⟨vis, hd, hlen, _, hstart, hnew⟩ :=
      g.dfs_spec hwf fuel nz (List.replicate g.V false) (by simp)
        hnz (getElem?_replicate_false hnz) (by simpa using hfuel)
    have hiff : ∀ x : Nat, vis[x]? = some true ↔ g.Reach nz x := by
      intro x
      constructor
      · intro hx
        have hxlt : x < g.V := by
          rw [← hlen]
          exact (List.getElem?_eq_some.1 hx).1
        exact (hnew x hx (getElem?_replicate_false hxlt)).1
      · intro hr
        induction hr with
        | refl => exact hstart
        | @tail y z _ hstep ihy =>
          have hylt : y < g.V := by
            rw [← hlen]
            exact (List.getElem?_eq_some.1 ihy).1
          exact (hnew y ihy (getElem?_replicate_false hylt)).2 z hstep
    obtain ⟨b, hb1, hb2⟩ :=
      g.allNonZeroVisited_spec vis g.V 0 (by rw [hwf.1]; omega) (by rw [hlen]; omega)
    refine ⟨nz, vis, b, h1, hnz, h4, fun j hj => h5 j (Nat.zero_le _) hj, hd, hiff, ?_, ?_⟩
    · unfold Graph.isConnected
      rw [h1]
      simp only [hd]
      exact hb1
    · rw [hb2]
      constructor
      · intro h j hj hne
        exact (hiff j).1 (h j (Nat.zero_le _) (by omega) hne)
      · intro h j _ hj hne
        exact (hiff j).2 (h j (by omega) hne)

theorem Graph.lt_of_adj_ne_nil (g : Graph) (hwf : g.WF) {a : Nat} (h : g.adj a ≠ []) :
    a < g.V := by
  by_contra hlt
  exact h (g.adj_eq_nil_of_le (by rw [hwf.1]; omega))

/-- The result of `hasEvenDegree` on a well-formed graph. -/
theorem Graph.hasEvenDegree_spec (g : Graph) (hwf : g.WF) :
    ∃ b, g.hasEvenDegree = .ok b ∧ (b = true ↔ g.EvenDegrees) := by
  obtain ⟨b, hb1, hb2⟩ := g.hasEvenDegreeFrom_spec g.V 0 (by rw [hwf.1]; omega)
  refine ⟨b, hb1, ?_⟩
  rw [hb2]
  constructor
  · intro h j hj
    exact h j (Nat.zero_le _) (by omega)
  · intro h j _ hj
    exact h j (by omega)

/-! ## `addEdge` and `removeEdge` -/

theorem getD_modify (f : List Nat → List Nat) (i j : Nat) (L : List (List Nat)) :
    ((List.modify f i L)[j]?).getD [] =
      if i = j ∧ j < L.length then f ((L[j]?).getD []) else (L[j]?).getD [] := by
  rw [List.getElem?_modify]
  by_cases hj : j < L.length
  · rw [List.getElem?_eq_getElem hj]
    by_cases hij : i = j
    · simp [hij, hj]
    · simp [hij]
  · rw [List.getElem?_eq_none (Nat.le_of_not_lt hj)]
    simp [hj]

theorem Graph.removeEdge_spec (g : Graph) {u v : Nat} (hu : u < g.adjList.length)
    (hv : v < g.adjList.length) :
    ∃ g1, g.removeEdge u v = .ok g1 ∧ g1.V = g.V ∧ g1.adjList.length = g.adjList.length ∧
      ∀ w, g1.adj w =
        if w = u then (g.adj u).filter (fun x => x != v)
        else if w = v then (g.adj v).filter (fun x => x != u)
        else g.adj w := by
  refine ⟨Graph.mk g.V (List.modify (fun l => l.filter (fun x => x != u)) v
    (List.modify (fun l => l.filter (fun x => x != v)) u g.adjList)), ?_, rfl, ?_, ?_⟩
  · unfold Graph.removeEdge
    rw [if_pos hu]
    simp only [List.length_modify]
    rw [if_pos hv]
  · simp only [List.length_modify]
  · intro w
    simp only [Graph.adj, getD_modify, List.length_modify]
    by_cases hwu : w = u
    · by_cases hwv : w = v
      · subst hwu
        subst hwv
        simp [hu, List.filter_filter]
      · subst hwu
        simp [hu, Ne.symm hwv]
    · by_cases hwv : w = v
      · subst hwv
        simp [hv, hwu, Ne.symm hwu]
      · simp [hwu, hwv, Ne.symm hwu, Ne.symm hwv]

theorem Graph.addEdge_spec (g : Graph) {u v : Nat} (hu : u < g.adjList.length)
    (hv : v < g.adjList.length) :
    ∃ g1, g.addEdge u v = .ok g1 ∧ g1.V = g.V ∧ g1.adjList.length = g.adjList.length ∧
      ∀ w, g1.adj w =
        if w = u then (if u = v then g.adj u ++ [v] ++ [u] else g.adj u ++ [v])
        else if w = v then g.adj v ++ [u]
        else g.adj w := by
  refine ⟨Graph.mk g.V (List.modify (fun l => l ++ [u]) v
    (List.modify (fun l => l ++ [v]) u g.adjList)), ?_, rfl, ?_, ?_⟩
  · unfold Graph.addEdge
    rw [if_pos hu]
    simp only [List.length_modify]
    rw [if_pos hv]
  · simp only [List.length_modify]
  · intro w
    simp only [Graph.adj, getD_modify, List.length_modify]
    by_cases hwu : w = u
    · by_cases hwv : w = v
      · subst hwu
        subst hwv
        simp [hu]
      · subst hwu
        simp [hu, Ne.symm hwv, hwv]
    · by_cases hwv : w = v
      · subst hwv
        simp [hv, hwu, Ne.symm hwu]
      · simp [hwu, hwv, Ne.symm hwu, Ne.symm hwv]

theorem count_filter_ne (l : List Nat) (v b : Nat) :
    (l.filter (fun x => x != v)).count b = if b = v then 0 else l.count b := by
  by_cases hb : b = v
  · subst hb
    simp [List.count_eq_zero]
  · rw [if_neg hb]
    exact List.count_filter (by simpa using hb)

theorem count_append_singleton (l : List Nat) (v b : Nat) :
    (l ++ [v]).count b = l.count b + if v = b then 1 else 0 := by
  rw [List.count_append, List.count_singleton]
  simp

theorem Graph.removeEdge_symmetric (g : Graph) (hlen : g.adjList.length = g.V)
    (hsym : g.Symmetric) {u v : Nat} (hu : u < g.V) (hv : v < g.V) :
    ∃ g1, g.removeEdge u v = .ok g1 ∧ g1.V = g.V ∧ g1.adjList.length = g1.V ∧
      g1.Symmetric := by
  obtain ⟨g1, h1, h2, h3, h4⟩ := g.removeEdge_spec (by omega : u < g.adjList.length)
    (by omega : v < g.adjList.length)
  refine ⟨g1, h1, h2, by omega, ?_⟩
  intro a ha b hb
  rw [h2] at ha hb
  have hab := hsym a ha b hb
  have hau := hsym a ha u hu
  have hav := hsym a ha v hv
  have hub := hsym u hu b hb
  have hvb := hsym v hv b hb
  rw [h4 a, h4 b]
  by_cases e1 : a = u <;> by_cases e2 : a = v <;> by_cases e3 : b = u <;>
    by_cases e4 : b = v <;> simp_all [count_filter_ne]

theorem Graph.addEdge_symmetric (g : Graph) (hlen : g.adjList.length = g.V)
    (hsym : g.Symmetric) {u v : Nat} (hu : u < g.V) (hv : v < g.V) :
    ∃ g1, g.addEdge u v = .ok g1 ∧ g1.V = g.V ∧ g1.adjList.length = g1.V ∧
      g1.Symmetric := by
  obtain ⟨g1, h1, h2, h3, h4⟩ := g.addEdge_spec (by omega : u < g.adjList.length)
    (by omega : v < g.adjList.length)
  refine ⟨g1, h1, h2, by omega, ?_⟩
  intro a ha b hb
  rw [h2] at ha hb
  have hab := hsym a ha b hb
  rw [h4 a, h4 b]
  by_cases e1 : a = u <;> by_cases e2 : a = v <;> by_cases e3 : b = u <;>
    by_cases e4 : b = v <;>
    simp_all [count_append_singleton, List.count_append, List.count_singleton]

/-! ## Termination of Hierholzer's loop -/

theorem Graph.adjList_eq_map_adj (g : Graph) :
    g.adjList = (List.range g.adjList.length).map g.adj := by
  apply List.ext_getElem?
  intro n
  rw [List.getElem?_map]
  by_cases hn : n < g.adjList.length
  · rw [List.getElem?_range hn, g.getElem?_eq_adj hn]
    rfl
  · rw [List.getElem?_eq_none (Nat.le_of_not_lt hn),
      List.getElem?_eq_none (by simpa using Nat.le_of_not_lt hn)]
    rfl

theorem Graph.totalDegree_eq (g : Graph) :
    g.totalDegree = ((List.range g.adjList.length).map (fun i => (g.adj i).length)).sum := by
  unfold Graph.totalDegree
  conv_lhs => rw [g.adjList_eq_map_adj]
  rw [List.map_map]
  rfl

theorem Graph.WF_iff (g : Graph) :
    g.WF ↔ g.adjList.length = g.V ∧ ∀ i w, w ∈ g.adj i → w < g.V := by
  constructor
  · intro h
    exact ⟨h.1, fun i w hw => h.lt_of_mem_adj hw⟩
  · rintro ⟨h1, h2⟩
    refine ⟨h1, ?_⟩
    intro l hl w hw
    obtain ⟨i, hi⟩ := List.mem_iff_getElem?.1 hl
    have hlt : i < g.adjList.length := (List.getElem?_eq_some.1 hi).1
    have := g.getElem?_eq_adj hlt
    rw [hi] at this
    injection this with this
    rw [this] at hw
    exact h2 i w hw

/-- Removing the edge at the front of the current vertex's list keeps the
graph well formed and strictly lowers the total degree. -/
theorem Graph.removeEdge_front (g : Graph) (hwf : g.WF) {u v : Nat} {t : List Nat}
    (hu : u < g.V) (hadj : g.adj u = v :: t) :
    ∃ g1, g.removeEdge u v = .ok g1 ∧ g1.V = g.V ∧ g1.WF ∧
      g1.totalDegree < g.totalDegree := by
  have hv : v < g.V := hwf.lt_of_mem_adj (by rw [hadj]; exact List.mem_cons_self _ _)
  have hul : u < g.adjList.length := by rw [hwf.1]; exact hu
  have hvl : v < g.adjList.length := by rw [hwf.1]; exact hv
  obtain ⟨g1, h1, h2, h3, h4⟩ := g.removeEdge_spec hul hvl
  have hsub : ∀ w x, x ∈ g1.adj w → x ∈ g.adj w := by
    intro w x hx
    rw [h4 w] at hx
    split at hx
    · rename_i hwu
      rw [hwu]
      exact (List.mem_filter.1 hx).1
    · split at hx
      · rename_i hwv
        rw [hwv]
        exact (List.mem_filter.1 hx).1
      · exact hx
  have hle : ∀ w, (g1.adj w).length ≤ (g.adj w).length := by
    intro w
    rw [h4 w]
    split
    · rename_i hwu
      rw [hwu]
      exact List.length_filter_le _ _
    · split
      · rename_i hwv
        rw [hwv]
        exact List.length_filter_le _ _
      · exact le_refl _
  have hlt : (g1.adj u).length < (g.adj u).length := by
    rw [h4 u, if_pos rfl, hadj]
    have : List.filter (fun x => x != v) (v :: t) = List.filter (fun x => x != v) t := by
      simp
    rw [this]
    exact Nat.lt_succ_of_le (List.length_filter_le _ _)
  refine ⟨g1, h1, h2, ?_, ?_⟩
  · rw [Graph.WF_iff]
    refine ⟨by rw [h3, h2]; exact hwf.1, ?_⟩
    intro i w hw
    rw [h2]
    exact hwf.lt_of_mem_adj (hsub i w hw)
  · rw [g1.totalDegree_eq, g.totalDegree_eq, h3]
    apply List.sum_lt_sum
    · intro i _
      exact hle i
    · exact ⟨u, List.mem_range.2 hul, hlt⟩

theorem hierholzerStep_safe (s : HState) (hs : s.Safe) (hne : s.currentPath ≠ []) :
    ∃ s1, hierholzerStep s = .ok s1 ∧ s1.Safe ∧ s1.measure < s.measure ∧ s1.g.V = s.g.V := by
  obtain ⟨hwf, hcur, hpath⟩ := hs
  have hcl : s.currentVertex < s.g.adjList.length := by rw [hwf.1]; exact hcur
  unfold hierholzerStep
  rw [s.g.getElem?_eq_adj hcl]
  cases hadj : s.g.adj s.currentVertex with
  | nil =>
    cases hp : s.currentPath with
    | nil => exact absurd hp hne
    | cons top rest =>
      refine ⟨_, rfl, ⟨hwf, ?_, ?_⟩, ?_, rfl⟩
      · exact hpath top (by rw [hp]; exact List.mem_cons_self _ _)
      · intro x hx
        exact hpath x (by rw [hp]; exact List.mem_cons_of_mem _ hx)
      · simp only [HState.measure, hp, List.length_cons]
        omega
  | cons nextVertex t =>
    obtain ⟨g1, h1, h2, h3, h4⟩ := s.g.removeEdge_front hwf hcur hadj
    have hnext : nextVertex < s.g.V :=
      hwf.lt_of_mem_adj (by rw [hadj]; exact List.mem_cons_self _ _)
    simp only [h1]
    refine ⟨_, rfl, ⟨h3, ?_, ?_⟩, ?_, h2⟩
    · show nextVertex < g1.V
      rw [h2]
      exact hnext
    · intro x hx
      show x < g1.V
      rw [h2]
      rcases List.mem_cons.1 hx with rfl | hx
      · exact hcur
      · exact hpath x hx
    · simp only [HState.measure, List.length_cons]
      omega

theorem hierholzerLoop_terminates :
    ∀ (fuel : Nat) (s : HState), s.Safe → s.measure < fuel →
      ∃ s1, hierholzerLoop fuel s = .ok s1 ∧ s1.currentPath = [] ∧ s1.Safe ∧
        s1.g.V = s.g.V := by
  intro fuel
  induction fuel with
  | zero =>
    intro s _ h
    omega
  | succ fuel ih =>
    intro s hs hm
    unfold hierholzerLoop
    cases hp : s.currentPath with
    | nil =>
      refine ⟨s, by simp, hp, hs, rfl⟩
    | cons top rest =>
      have hne : s.currentPath ≠ [] := by rw [hp]; simp
      obtain ⟨s1, h1, h2, h3, h4⟩ := hierholzerStep_safe s hs hne
      obtain ⟨s2, k1, k2, k3, k4⟩ := ih s1 h2 (by omega)
      refine ⟨s2, ?_, k2, k3, by rw [k4, h4]⟩
      simp only [List.isEmpty_cons, Bool.false_eq_true, if_false, h1]
      exact k1

theorem Graph.findEulerianCircuit_total (g : Graph) (hwf : g.WF) (hV : 0 < g.V)
    (fuel : Nat) (hfuel : g.fuelBound ≤ fuel) :
    ∃ out, g.findEulerianCircuit fuel = .ok out := by
  unfold Graph.fuelBound at hfuel
  have hconn : ∃ b, g.isConnected fuel = .ok b := by
    rcases g.isConnected_spec hwf fuel (by omega) with ⟨_, _, h⟩ | ⟨_, _, b, _, _, _, _, _, _, h, _⟩
    · exact ⟨true, h⟩
    · exact ⟨b, h⟩
  obtain ⟨b, hb⟩ := hconn
  obtain ⟨e, he, _⟩ := g.hasEvenDegree_spec hwf
  unfold Graph.findEulerianCircuit
  rw [hb]
  cases b with
  | false => exact ⟨_, rfl⟩
  | true =>
    simp only [he]
    cases e with
    | false => exact ⟨_, rfl⟩
    | true =>
      simp only []
      have hstart : ∃ st, g.firstNonEmpty g.V 0 = .ok st ∧ st.getD 0 < g.V := by
        rcases g.firstNonEmpty_spec g.V 0 (by rw [hwf.1]; omega) with
          ⟨h1, _⟩ | ⟨k, h1, _, h3, _, _⟩
        · exact ⟨none, h1, hV⟩
        · exact ⟨some k, h1, by simpa using h3⟩
      obtain ⟨st, hst1, hst2⟩ := hstart
      rw [hst1]
      simp only []
      obtain ⟨s1, h1, _, _, _⟩ := hierholzerLoop_terminates fuel
        { g := g, currentPath := [st.getD 0], circuit := [], currentVertex := st.getD 0 }
        ⟨hwf, hst2, by simpa using hst2⟩
        (by simp only [HState.measure, List.length_singleton]; omega)
      rw [h1]
      exact ⟨_, rfl⟩

/-! ## The generated cycle -/

theorem Graph.ext_adj {g1 g2 : Graph} (hV : g1.V = g2.V)
    (hlen : g1.adjList.length = g2.adjList.length) (hadj : ∀ w, g1.adj w = g2.adj w) :
    g1 = g2 := by
  cases g1 with
  | mk V1 L1 =>
    cases g2 with
    | mk V2 L2 =>
      simp only at hV hlen
      have h1 := Graph.adjList_eq_map_adj ⟨V1, L1⟩
      have h2 := Graph.adjList_eq_map_adj ⟨V2, L2⟩
      simp only at h1 h2
      have : L1 = L2 := by
        rw [h1, h2, hlen]
        exact List.map_congr_left (fun a _ => hadj a)
      rw [hV, this]

theorem adj_mk_map (V : Nat) (f : Nat → List Nat) (w : Nat) :
    (Graph.mk V ((List.range V).map f)).adj w = if w < V then f w else [] := by
  unfold Graph.adj
  simp only [List.getElem?_map]
  by_cases hw : w < V
  · rw [List.getElem?_range hw, if_pos hw]
    rfl
  · rw [List.getElem?_eq_none (by simpa using Nat.le_of_not_lt hw), if_neg hw]
    rfl

theorem new_eq_map (V : Nat) : Graph.new V = Graph.mk V ((List.range V).map (pathAdj 0)) := by
  apply Graph.ext_adj
  · rfl
  · simp [Graph.new]
  · intro w
    rw [adj_mk_map]
    unfold Graph.new Graph.adj pathAdj
    simp only [List.getElem?_replicate]
    split_ifs <;> simp_all

theorem pathAdj_step (V i w : Nat) (hi : i + 1 < V) :
    (if w = i then
        (if i = i + 1 then (if i < V then pathAdj i i else []) ++ [i + 1] ++ [i]
         else (if i < V then pathAdj i i else []) ++ [i + 1])
      else if w = i + 1 then (if i + 1 < V then pathAdj i (i + 1) else []) ++ [i]
      else (if w < V then pathAdj i w else [])) =
    (if w < V then pathAdj (i + 1) w else []) := by
  have hne : ¬ (i = i + 1) := by omega
  have hiV : i < V := by omega
  by_cases hwi : w = i
  · subst hwi
    by_cases h0 : w = 0
    · subst h0
      simp [pathAdj, hiV]
    · simp [pathAdj, hiV, h0]
  · by_cases hwi1 : w = i + 1
    · subst hwi1
      simp [pathAdj, hi]
    · rw [if_neg hwi, if_neg hwi1]
      by_cases hwV : w < V
      · rw [if_pos hwV, if_pos hwV]
        unfold pathAdj
        by_cases hlt : w < i
        · have hlt1 : w < i + 1 := by omega
          rw [if_pos hlt, if_pos hlt1]
        · have hlt1 : ¬ (w < i + 1) := by omega
          rw [if_neg hlt, if_neg hlt1, if_neg hwi, if_neg hwi1]
      · rw [if_neg hwV, if_neg hwV]

theorem addEdge_path (V i : Nat) (hi : i + 1 < V) :
    (Graph.mk V ((List.range V).map (pathAdj i))).addEdge i ((i + 1) % V) =
      .ok (Graph.mk V ((List.range V).map (pathAdj (i + 1)))) := by
  obtain ⟨g1, h1, h2, h3, h4⟩ := (Graph.mk V ((List.range V).map (pathAdj i))).addEdge_spec
    (u := i) (v := (i + 1) % V) (by simp; omega) (by simp; exact Nat.mod_lt _ (by omega))
  rw [h1]
  congr 1
  apply Graph.ext_adj
  · exact h2
  · rw [h3]; simp
  · intro w
    rw [h4 w]
    simp only [adj_mk_map, Nat.mod_eq_of_lt hi]
    exact pathAdj_step V i w hi

theorem addEdge_close (V : Nat) (hV : 3 ≤ V) :
    (Graph.mk V ((List.range V).map (pathAdj (V - 1)))).addEdge (V - 1) ((V - 1 + 1) % V) =
      .ok (cycleGraph V) := by
  have hmod : (V - 1 + 1) % V = 0 := by
    rw [Nat.sub_add_cancel (by omega)]
    exact Nat.mod_self V
  obtain ⟨g1, h1, h2, h3, h4⟩ := (Graph.mk V ((List.range V).map (pathAdj (V - 1)))).addEdge_spec
    (u := V - 1) (v := (V - 1 + 1) % V) (by simp; omega) (by simp; rw [hmod]; omega)
  rw [h1]
  congr 1
  apply Graph.ext_adj
  · exact h2
  · rw [h3]; simp [cycleGraph]
  · intro w
    rw [h4 w]
    simp only [cycleGraph, adj_mk_map, hmod]
    unfold pathAdj cycleAdj
    by_cases hw : w < V
    · by_cases hw0 : w = 0
      · subst hw0
        have h12 : ¬ (0 = V - 1) := by omega
        have h13 : 0 < V - 1 := by omega
        simp [h12, h13, hw]
      · by_cases hw1 : w = V - 1
        · subst hw1
          have h5 : ¬ (V - 1 = 0) := by omega
          have h6 : V - 1 + 1 = V := by omega
          simp [h5, h6, hw]
        · have h7 : w < V - 1 := by omega
          have h8 : (w + 1) % V = w + 1 := Nat.mod_eq_of_lt (by omega)
          simp [hw0, hw1, hw, h7, h8]
    · have h9 : ¬ (w = V - 1) := by omega
      have h10 : ¬ (w = 0) := by omega
      have h11 : ¬ (w < V - 1) := by omega
      simp [hw, h9, h10, h11]

theorem cycleLoop_path (V : Nat) (hV : 3 ≤ V) :
    ∀ n i, i + n + 1 = V →
      Graph.cycleLoop (n + 1) i (Graph.mk V ((List.range V).map (pathAdj i))) =
        .ok (cycleGraph V) := by
  intro n
  induction n with
  | zero =>
    intro i hi
    have hiV : i = V - 1 := by omega
    subst hiV
    unfold Graph.cycleLoop
    simp only []
    rw [addEdge_close V hV]
    rfl
  | succ n ih =>
    intro i hi
    unfold Graph.cycleLoop
    simp only []
    rw [addEdge_path V i (by omega)]
    exact ih (i + 1) (by omega)

theorem generate_cycle (V : Nat) (hV : 3 ≤ V) (numEdges : Int) (hE : numEdges ≤ V)
    (draws : List Nat) :
    (Graph.new V).generateRandomEvenDegreeGraph numEdges draws = .ok (cycleGraph V) := by
  unfold Graph.generateRandomEvenDegreeGraph
  have hstep1 : Graph.cycleLoop (Graph.new V).V 0 (Graph.new V) = .ok (cycleGraph V) := by
    rw [new_eq_map]
    obtain ⟨n, hn⟩ : ∃ n, V = n + 1 := ⟨V - 1, by omega⟩
    have := cycleLoop_path V hV n 0 (by omega)
    simp only []
    rw [hn] at this ⊢
    exact this
  rw [hstep1]
  have hnot : ¬ (((Graph.new V).V : Nat) : Int) < numEdges := by
    simp only [Graph.new]
    omega
  simp only []
  unfold Graph.randomLoop
  split <;> simp only [hnot, if_false]

/-! ## Hierholzer's loop on the cycle -/

theorem hierholzerStep_forward (g g1 : Graph) (st c : List Nat) (cur next : Nat)
    (t : List Nat) (hcur : cur < g.adjList.length) (hadj : g.adj cur = next :: t)
    (hrem : g.removeEdge cur next = .ok g1) :
    hierholzerStep { g := g, currentPath := st, circuit := c, currentVertex := cur } =
      .ok { g := g1, currentPath := cur :: st, circuit := c, currentVertex := next } := by
  unfold hierholzerStep
  simp only [g.getElem?_eq_adj hcur, hadj, hrem]

theorem hierholzerStep_backward (g : Graph) (top : Nat) (rest c : List Nat) (cur : Nat)
    (hcur : cur < g.adjList.length) (hadj : g.adj cur = []) :
    hierholzerStep { g := g, currentPath := top :: rest, circuit := c, currentVertex := cur } =
      .ok { g := g, currentPath := rest, circuit := c ++ [cur], currentVertex := top } := by
  unfold hierholzerStep
  simp only [g.getElem?_eq_adj hcur, hadj]

theorem hierholzerLoop_succ (fuel : Nat) (s s1 : HState) (hne : s.currentPath ≠ [])
    (hstep : hierholzerStep s = .ok s1) :
    hierholzerLoop (fuel + 1) s = hierholzerLoop fuel s1 := by
  conv_lhs => unfold hierholzerLoop
  have : s.currentPath.isEmpty = false := by
    cases hp : s.currentPath with
    | nil => exact absurd hp hne
    | cons a t => rfl
  simp only [this, hstep, Bool.false_eq_true, if_false]

theorem removeEdge_cycle_first (V : Nat) (hV : 3 ≤ V) :
    (cycleGraph V).removeEdge 0 1 = .ok (Graph.mk V ((List.range V).map (walkAdj V 1))) := by
  obtain ⟨g1, h1, h2, h3, h4⟩ := (cycleGraph V).removeEdge_spec (u := 0) (v := 1)
    (by simp [cycleGraph]; omega) (by simp [cycleGraph]; omega)
  rw [h1]
  congr 1
  apply Graph.ext_adj
  · exact h2
  · rw [h3]; simp [cycleGraph]
  · intro w
    rw [h4 w]
    simp only [cycleGraph, adj_mk_map]
    have h0V : 0 < V := by omega
    have h1V : 1 < V := by omega
    have h2V : 2 % V = 2 := Nat.mod_eq_of_lt (by omega)
    have hV1 : ¬ (V - 1 = 1) := by omega
    by_cases hw0 : w = 0
    · subst hw0
      simp [walkAdj, cycleAdj, h0V, hV1]
    · by_cases hw1 : w = 1
      · subst hw1
        simp [walkAdj, cycleAdj, h1V, h2V]
      · rw [if_neg hw0, if_neg hw1]
        by_cases hwV : w < V
        · have h3 : ¬ (w < 1) := by omega
          simp [walkAdj, hwV, hw0, hw1, h3]
        · simp [hwV]

theorem removeEdge_cycle_mid (V k : Nat) (hk : 1 ≤ k) (hkV : k + 1 < V) :
    (Graph.mk V ((List.range V).map (walkAdj V k))).removeEdge k ((k + 1) % V) =
      .ok (Graph.mk V ((List.range V).map (walkAdj V (k + 1)))) := by
  have hmod : (k + 1) % V = k + 1 := Nat.mod_eq_of_lt hkV
  obtain ⟨g1, h1, h2, h3, h4⟩ :=
    (Graph.mk V ((List.range V).map (walkAdj V k))).removeEdge_spec (u := k) (v := (k + 1) % V)
      (by simp; omega) (by simp; rw [hmod]; omega)
  rw [h1]
  congr 1
  apply Graph.ext_adj
  · exact h2
  · rw [h3]; simp
  · intro w
    rw [h4 w]
    simp only [adj_mk_map, hmod]
    have hkV0 : k < V := by omega
    have hk0 : ¬ (k = 0) := by omega
    have hne : ¬ ((k + 1 + 1) % V = k) := by
      by_cases h2 : k + 1 + 1 < V
      · rw [Nat.mod_eq_of_lt h2]; omega
      · have : k + 1 + 1 = V := by omega
        rw [this, Nat.mod_self]; omega
    by_cases hwk : w = k
    · subst hwk
      simp [walkAdj, hkV0, hk0, hmod]
    · by_cases hwk1 : w = k + 1
      · subst hwk1
        simp [walkAdj, cycleAdj, hkV, hne]
      · rw [if_neg hwk, if_neg hwk1]
        by_cases hwV : w < V
        · simp only [if_pos hwV]
          unfold walkAdj
          by_cases hw0 : w = 0
          · rw [if_pos hw0, if_pos hw0]
          · rw [if_neg hw0, if_neg hw0]
            by_cases hlt : w < k
            · have hlt1 : w < k + 1 := by omega
              rw [if_pos hlt, if_pos hlt1]
            · have hlt1 : ¬ (w < k + 1) := by omega
              rw [if_neg hlt, if_neg hlt1, if_neg hwk, if_neg hwk1]
        · simp [hwV]

theorem removeEdge_cycle_last (V : Nat) (hV : 3 ≤ V) :
    (Graph.mk V ((List.range V).map (walkAdj V (V - 1)))).removeEdge (V - 1) ((V - 1 + 1) % V) =
      .ok (Graph.new V) := by
  have hmod : (V - 1 + 1) % V = 0 := by
    rw [Nat.sub_add_cancel (by omega)]
    exact Nat.mod_self V
  obtain ⟨g1, h1, h2, h3, h4⟩ :=
    (Graph.mk V ((List.range V).map (walkAdj V (V - 1)))).removeEdge_spec
      (u := V - 1) (v := (V - 1 + 1) % V) (by simp; omega) (by simp; rw [hmod]; omega)
  rw [h1]
  congr 1
  apply Graph.ext_adj
  · exact h2
  · rw [h3]; simp [Graph.new]
  · intro w
    rw [h4 w]
    have hnew : (Graph.new V).adj w = [] := by
      unfold Graph.new Graph.adj
      simp only [List.getElem?_replicate]
      split <;> rfl
    rw [hnew]
    simp only [adj_mk_map, hmod]
    have hV1 : V - 1 < V := by omega
    have hV0 : ¬ (V - 1 = 0) := by omega
    have h0V : 0 < V := by omega
    by_cases hw1 : w = V - 1
    · subst hw1
      simp [walkAdj, hV1, hV0, hmod]
    · by_cases hw0 : w = 0
      · subst hw0
        simp [walkAdj, h0V, hw1]
      · rw [if_neg hw1, if_neg hw0]
        by_cases hwV : w < V
        · have hlt : w < V - 1 := by omega
          simp [walkAdj, hwV, hw0, hlt]
        · simp [hwV]

theorem adj_new (V w : Nat) : (Graph.new V).adj w = [] := by
  unfold Graph.new Graph.adj
  simp only [List.getElem?_replicate]
  split <;> rfl

theorem loop_cycle_forward (V : Nat) (hV : 3 ≤ V) :
    ∀ d k, 1 ≤ k → k + d + 1 = V → ∀ (fuel : Nat) (c : List Nat),
      hierholzerLoop (fuel + (d + 1))
        { g := Graph.mk V ((List.range V).map (walkAdj V k)),
          currentPath := (List.range k).reverse ++ [0], circuit := c, currentVertex := k } =
      hierholzerLoop fuel
        { g := Graph.new V, currentPath := (List.range V).reverse ++ [0],
          circuit := c, currentVertex := 0 } := by
  intro d
  induction d with
  | zero =>
    intro k hk hkV fuel c
    have hk1 : k = V - 1 := by omega
    subst hk1
    have hmod : (V - 1 + 1) % V = 0 := by
      rw [Nat.sub_add_cancel (by omega)]
      exact Nat.mod_self V
    have hadj : (Graph.mk V ((List.range V).map (walkAdj V (V - 1)))).adj (V - 1) =
        [(V - 1 + 1) % V] := by
      rw [adj_mk_map]
      have h1 : V - 1 < V := by omega
      have h2 : ¬ (V - 1 = 0) := by omega
      simp [walkAdj, h1, h2]
    have hstep := hierholzerStep_forward _ _ ((List.range (V - 1)).reverse ++ [0]) c (V - 1)
      ((V - 1 + 1) % V) [] (by simp; omega) hadj (removeEdge_cycle_last V hV)
    rw [show fuel + (0 + 1) = fuel + 1 from rfl,
      hierholzerLoop_succ fuel _ _ (by simp) hstep, hmod]
    have hstack : (V - 1) :: ((List.range (V - 1)).reverse ++ [0]) =
        (List.range V).reverse ++ [0] := by
      conv_rhs => rw [show V = (V - 1) + 1 by omega, List.range_succ]
      simp
    rw [hstack]
  | succ d ih =>
    intro k hk hkV fuel c
    have hk1 : k + 1 < V := by omega
    have hmod : (k + 1) % V = k + 1 := Nat.mod_eq_of_lt hk1
    have hadj : (Graph.mk V ((List.range V).map (walkAdj V k))).adj k = [(k + 1) % V] := by
      rw [adj_mk_map]
      have h1 : k < V := by omega
      have h2 : ¬ (k = 0) := by omega
      simp [walkAdj, h1, h2]
    have hstep := hierholzerStep_forward _ _ ((List.range k).reverse ++ [0]) c k
      ((k + 1) % V) [] (by simp; omega) hadj (removeEdge_cycle_mid V k hk hk1)
    rw [show fuel + (d + 1 + 1) = (fuel + (d + 1)) + 1 from rfl,
      hierholzerLoop_succ _ _ _ (by simp) hstep, hmod]
    have hstack : k :: ((List.range k).reverse ++ [0]) =
        (List.range (k + 1)).reverse ++ [0] := by
      rw [List.range_succ]
      simp
    rw [hstack]
    exact ih (k + 1) (by omega) (by omega) fuel c

theorem loop_backward (V : Nat) :
    ∀ (st c : List Nat) (cur fuel : Nat), cur < V → (∀ x ∈ st, x < V) →
      ∃ s1, hierholzerLoop (fuel + st.length + 1)
          { g := Graph.new V, currentPath := st, circuit := c, currentVertex := cur } = .ok s1 ∧
        s1.g = Graph.new V ∧ s1.circuit = c ++ (cur :: st).dropLast := by
  intro st
  induction st with
  | nil =>
    intro c cur fuel _ _
    refine ⟨{ g := Graph.new V, currentPath := [], circuit := c, currentVertex := cur },
      ?_, rfl, ?_⟩
    · unfold hierholzerLoop
      simp
    · simp
  | cons top rest ih =>
    intro c cur fuel hcur hst
    have hstep := hierholzerStep_backward (Graph.new V) top rest c cur
      (by simpa [Graph.new] using hcur) (adj_new V cur)
    obtain ⟨s1, h1, h2, h3⟩ := ih (c ++ [cur]) top fuel
      (hst top (List.mem_cons_self _ _)) (fun x hx => hst x (List.mem_cons_of_mem _ hx))
    refine ⟨s1, ?_, h2, ?_⟩
    · rw [show fuel + (top :: rest).length + 1 = (fuel + rest.length + 1) + 1 from rfl,
        hierholzerLoop_succ _ _ _ (by simp) hstep]
      exact h1
    · rw [h3]
      simp

theorem loop_cycle (V : Nat) (hV : 3 ≤ V) (fuel : Nat) (hfuel : 2 * V + 2 ≤ fuel) :
    ∃ s1, hierholzerLoop fuel
        { g := cycleGraph V, currentPath := [0], circuit := [], currentVertex := 0 } = .ok s1 ∧
      s1.g = Graph.new V ∧ s1.circuit = 0 :: (List.range V).reverse := by
  obtain ⟨f, hf⟩ : ∃ f, fuel = ((f + ((List.range V).reverse ++ [0]).length + 1) +
      (V - 2 + 1)) + 1 := ⟨fuel - (2 * V + 2), by simp; omega⟩
  have hadj : (cycleGraph V).adj 0 = [1, V - 1] := by
    unfold cycleGraph
    rw [adj_mk_map]
    have h1 : 0 < V := by omega
    simp [cycleAdj, h1]
  have hstep := hierholzerStep_forward _ _ [0] [] 0 1 [V - 1]
    (by simp [cycleGraph]; omega) hadj (removeEdge_cycle_first V hV)
  obtain ⟨s1, h1, h2, h3⟩ := loop_backward V ((List.range V).reverse ++ [0]) [] 0 f
    (by omega) (by
      intro x hx
      rcases List.mem_append.1 hx with hx | hx
      · exact List.mem_range.1 (List.mem_reverse.1 hx)
      · simp at hx
        omega)
  refine ⟨s1, ?_, h2, ?_⟩
  · rw [hf, hierholzerLoop_succ _ _ _ (by simp) hstep]
    have := loop_cycle_forward V hV (V - 2) 1 (le_refl _) (by omega)
      (f + ((List.range V).reverse ++ [0]).length + 1) []
    rw [show (List.range 1).reverse ++ [0] = [0, 0] from rfl] at this
    rw [this]
    exact h1
  · rw [h3, show (0 :: ((List.range V).reverse ++ [0])) = (0 :: (List.range V).reverse) ++ [0]
      from rfl, List.dropLast_concat]
    rfl

theorem cycleGraph_adj (V w : Nat) (hw : w < V) : (cycleGraph V).adj w = cycleAdj V w := by
  unfold cycleGraph
  rw [adj_mk_map, if_pos hw]

theorem cycleGraph_WF (V : Nat) (hV : 3 ≤ V) : (cycleGraph V).WF := by
  rw [Graph.WF_iff]
  refine ⟨by simp [cycleGraph], ?_⟩
  intro i w hw
  show w < V
  unfold cycleGraph at hw
  rw [adj_mk_map] at hw
  by_cases hi : i < V
  · rw [if_pos hi] at hw
    unfold cycleAdj at hw
    by_cases h0 : i = 0
    · rw [if_pos h0] at hw
      simp at hw
      omega
    · rw [if_neg h0] at hw
      simp at hw
      rcases hw with rfl | rfl
      · omega
      · exact Nat.mod_lt _ (by omega)
  · rw [if_neg hi] at hw
    cases hw

theorem cycleGraph_reach (V : Nat) : ∀ j, j < V → (cycleGraph V).Reach 0 j := by
  intro j
  induction j with
  | zero => intro _; exact Relation.ReflTransGen.refl
  | succ j ih =>
    intro hj
    refine Relation.ReflTransGen.tail (ih (by omega)) ?_
    show j + 1 ∈ (cycleGraph V).adj j
    rw [cycleGraph_adj V j (by omega)]
    unfold cycleAdj
    by_cases h0 : j = 0
    · subst h0
      simp
    · rw [if_neg h0, Nat.mod_eq_of_lt hj]
      simp

theorem cycleGraph_firstNonEmpty (V : Nat) (hV : 3 ≤ V) :
    (cycleGraph V).firstNonEmpty (cycleGraph V).V 0 = .ok (some 0) := by
  have h0 : (cycleGraph V).adj 0 ≠ [] := by
    rw [cycleGraph_adj V 0 (by omega)]
    simp [cycleAdj]
  rcases (cycleGraph V).firstNonEmpty_spec (cycleGraph V).V 0
      (by rw [(cycleGraph_WF V hV).1]; omega) with ⟨_, h2⟩ | ⟨k, h1, _, _, _, h5⟩
  · exact absurd (h2 0 (le_refl _) (by show 0 < 0 + V; omega)) h0
  · have hk : k = 0 := by
      by_contra hk
      exact h0 (h5 0 (le_refl _) (by omega))
    rw [hk] at h1
    exact h1

theorem cycleGraph_isConnected (V : Nat) (hV : 3 ≤ V) (fuel : Nat) (hfuel : V ≤ fuel) :
    (cycleGraph V).isConnected fuel = .ok true := by
  rcases (cycleGraph V).isConnected_spec (cycleGraph_WF V hV) fuel hfuel with
    ⟨_, _, h⟩ | ⟨nz, _, b, h1, _, _, _, _, _, h7, h8⟩
  · exact h
  · rw [cycleGraph_firstNonEmpty V hV] at h1
    have hnz : nz = 0 := by
      injection h1 with h1
      injection h1 with h1
      exact h1.symm
    subst hnz
    have hb : b = true := h8.2 (fun j hj _ => cycleGraph_reach V j hj)
    rw [h7, hb]

theorem cycleGraph_hasEvenDegree (V : Nat) (hV : 3 ≤ V) :
    (cycleGraph V).hasEvenDegree = .ok true := by
  obtain ⟨b, h1, h2⟩ := (cycleGraph V).hasEvenDegree_spec (cycleGraph_WF V hV)
  have hb : b = true := by
    rw [h2]
    intro i hi
    rw [cycleGraph_adj V i hi]
    unfold cycleAdj
    split <;> simp
  rw [h1, hb]

theorem cycleGraph_findEulerianCircuit (V : Nat) (hV : 3 ≤ V) (fuel : Nat)
    (hfuel : 2 * V + 2 ≤ fuel) :
    (cycleGraph V).findEulerianCircuit fuel =
      .ok (.circuit (0 :: (List.range V).reverse), Graph.new V) := by
  obtain ⟨s1, h1, h2, h3⟩ := loop_cycle V hV fuel hfuel
  unfold Graph.findEulerianCircuit
  rw [cycleGraph_isConnected V hV fuel (by omega)]
  simp only [cycleGraph_hasEvenDegree V hV, cycleGraph_firstNonEmpty V hV, Option.getD_some, h1,
    h2, h3]

theorem circuitEdges_range_reverse :
    ∀ n, circuitEdges (List.range (n + 1)).reverse =
      ((List.range n).map (fun i => s(i, i + 1))).reverse := by
  intro n
  induction n with
  | zero => rfl
  | succ n ih =>
    have h1 : (List.range (n + 1 + 1)).reverse = (n + 1) :: n :: (List.range n).reverse := by
      rw [List.range_succ, List.range_succ]
      simp
    have h2 : (List.range (n + 1)).reverse = n :: (List.range n).reverse := by
      rw [List.range_succ]
      simp
    rw [h1]
    show s(n + 1, n) :: circuitEdges (n :: (List.range n).reverse) = _
    rw [← h2, ih]
    conv_rhs => rw [List.range_succ]
    simp [Sym2.eq_swap]

theorem circuitEdges_cycle (V : Nat) (hV : 3 ≤ V) :
    circuitEdges (0 :: (List.range V).reverse) = (cycleEdges V).reverse := by
  obtain ⟨m, rfl⟩ : ∃ m, V = m + 1 := ⟨V - 1, by omega⟩
  have h2 : (List.range (m + 1)).reverse = m :: (List.range m).reverse := by
    rw [List.range_succ]
    simp
  have h3 : circuitEdges (0 :: (List.range (m + 1)).reverse) =
      s(0, m) :: circuitEdges (List.range (m + 1)).reverse := by
    rw [h2]
    rfl
  rw [h3, circuitEdges_range_reverse]
  unfold cycleEdges
  rw [List.range_succ, List.map_append, List.reverse_append]
  have h4 : (List.range m).map (fun i => s(i, (i + 1) % (m + 1))) =
      (List.range m).map (fun i => s(i, i + 1)) := by
    apply List.map_congr_left
    intro i hi
    have : i < m := List.mem_range.1 hi
    rw [Nat.mod_eq_of_lt (by omega)]
  rw [h4]
  simp [Sym2.eq_swap]

theorem Graph.removeEdge_ok_lt (g g1 : Graph) (u v : Nat) (h : g.removeEdge u v = .ok g1) :
    u < g.adjList.length ∧ v < g.adjList.length := by
  unfold Graph.removeEdge at h
  by_cases hu : u < g.adjList.length
  · rw [if_pos hu] at h
    simp only [List.length_modify] at h
    by_cases hv : v < g.adjList.length
    · exact ⟨hu, hv⟩
    · rw [if_neg hv] at h
      cases h
  · rw [if_neg hu] at h
    cases h

theorem hierholzerStep_symmetric (s s1 : HState) (hlen : s.g.adjList.length = s.g.V)
    (hsym : s.g.Symmetric) (h : hierholzerStep s = .ok s1) :
    s1.g.adjList.length = s1.g.V ∧ s1.g.Symmetric := by
  unfold hierholzerStep at h
  split at h
  · cases h
  · split at h
    · cases h
    · rename_i g1 hrem
      obtain ⟨hu, hv⟩ := Graph.removeEdge_ok_lt _ _ _ _ hrem
      obtain ⟨g2, k1, _, k3, k4⟩ := s.g.removeEdge_symmetric hlen hsym
        (by rw [← hlen]; exact hu) (by rw [← hlen]; exact hv)
      rw [hrem] at k1
      injection k1 with k1
      injection h with h
      rw [← h]
      show g1.adjList.length = g1.V ∧ g1.Symmetric
      rw [k1]
      exact ⟨k3, k4⟩
  · split at h
    · cases h
    · injection h with h
      rw [← h]
      exact ⟨hlen, hsym⟩

theorem twoEdges_not_reach : ¬ twoEdges.Reach 0 2 := by
  have key : ∀ x, twoEdges.Reach 0 x → x = 0 ∨ x = 1 := by
    intro x hx
    induction hx with
    | refl => left; rfl
    | @tail y z _ hstep ih =>
      have hz : z ∈ twoEdges.adj y := hstep
      rcases ih with rfl | rfl
      · right
        simpa [twoEdges, Graph.adj] using hz
      · left
        simpa [twoEdges, Graph.adj] using hz
  intro h
  rcases key 2 h with h | h <;> omega

theorem triangle_reach (a b : Nat) (ha : triangle.adj a ≠ []) (hb : triangle.adj b ≠ []) :
    triangle.Reach a b := by
  have hwf : triangle.WF := by decide
  have ha3 : a < 3 := triangle.lt_of_adj_ne_nil hwf ha
  have hb3 : b < 3 := triangle.lt_of_adj_ne_nil hwf hb
  interval_cases a <;> interval_cases b <;>
    first
    | exact Relation.ReflTransGen.refl
    | exact Relation.ReflTransGen.single (by decide)

/-! ## The claims -/

/-- C1 (fails on the code). The claim promises, for every even and connected
multigraph, a sequence of `E + 1` labels that starts and ends at the same
vertex. On the two-vertex graph with two parallel edges `0-1` (symmetric, every
degree `2`, `0` and `1` joined, `E = 2`; it is the graph that the generator
builds for `V = 2`) the method prints `1 -> 0`: two labels instead of three,
first and last different. The cause is `removeEdge`, which erases every copy of
the edge at once. -/
theorem findEulerianCircuit_parallel_edges :
    doubleEdge.WF ∧ doubleEdge.Symmetric ∧ doubleEdge.EvenDegrees ∧
    doubleEdge.Reach 0 1 ∧ doubleEdge.Reach 1 0 ∧ doubleEdge.numEdges = 2 ∧
    (Graph.new 2).generateRandomEvenDegreeGraph 0 [] = .ok doubleEdge ∧
    (∀ n, doubleEdge.findEulerianCircuit (n + 4) = .ok (.circuit [1, 0], Graph.new 2)) ∧
    [1, 0].length ≠ doubleEdge.numEdges + 1 ∧ [1, 0].head? ≠ [1, 0].getLast? := by
  refine ⟨by decide, by decide, by decide, Relation.ReflTransGen.single (by decide),
    Relation.ReflTransGen.single (by decide), by decide, rfl, fun n => rfl, by decide, by decide⟩

/-- C2. On a well-formed graph with a vertex of odd degree, `findEulerianCircuit`
returns one of its two "No Eulerian Circuit exists" reports and leaves the graph
as it was: "not connected" when `isConnected` fails, "odd degree" otherwise. No
sequence is produced in either case. -/
theorem odd_degree_reports_no_circuit (g : Graph) (hwf : g.WF) (i : Nat) (hi : i < g.V)
    (hodd : (g.adj i).length % 2 = 1) (fuel : Nat) (hfuel : g.V ≤ fuel) :
    (g.isConnected fuel = .ok false ∧
      g.findEulerianCircuit fuel = .ok (.notConnected, g)) ∨
    (g.isConnected fuel = .ok true ∧ g.hasEvenDegree = .ok false ∧
      g.findEulerianCircuit fuel = .ok (.oddDegree, g)) := by
  have hconn : ∃ b, g.isConnected fuel = .ok b := by
    rcases g.isConnected_spec hwf fuel hfuel with
      ⟨_, _, h⟩ | ⟨_, _, b, _, _, _, _, _, _, h, _⟩
    · exact ⟨true, h⟩
    · exact ⟨b, h⟩
  obtain ⟨b, hb⟩ := hconn
  obtain ⟨e, he1, he2⟩ := g.hasEvenDegree_spec hwf
  have hefalse : e = false := by
    cases e with
    | false => rfl
    | true =>
      have := he2.1 rfl i hi
      omega
  subst hefalse
  cases b with
  | false =>
    left
    refine ⟨hb, ?_⟩
    unfold Graph.findEulerianCircuit
    rw [hb]
  | true =>
    right
    refine ⟨hb, he1, ?_⟩
    unfold Graph.findEulerianCircuit
    rw [hb]
    simp only [he1]

/-- C2, at the single edge `0-1` (both degrees are `1`). -/
theorem odd_degree_reports_no_circuit_witness :
    (oneEdge.isConnected 2 = .ok false ∧
      oneEdge.findEulerianCircuit 2 = .ok (.notConnected, oneEdge)) ∨
    (oneEdge.isConnected 2 = .ok true ∧ oneEdge.hasEvenDegree = .ok false ∧
      oneEdge.findEulerianCircuit 2 = .ok (.oddDegree, oneEdge)) :=
  odd_degree_reports_no_circuit oneEdge (by decide) 0 (by decide) (by decide) 2 (by decide)

/-- C3. On a well-formed graph with symmetric adjacency lists, if two vertices
of non-zero degree are not joined by a path then `isConnected` returns `false`
and `findEulerianCircuit` reports "not connected", produces no sequence and
leaves the graph as it was. -/
theorem disconnected_reports_no_circuit (g : Graph) (hwf : g.WF) (hsym : g.Symmetric)
    (a b : Nat) (ha : g.adj a ≠ []) (hb : g.adj b ≠ []) (hab : ¬ g.Reach a b)
    (fuel : Nat) (hfuel : g.V ≤ fuel) :
    g.isConnected fuel = .ok false ∧
    g.findEulerianCircuit fuel = .ok (.notConnected, g) := by
  have haV := g.lt_of_adj_ne_nil hwf ha
  have hbV := g.lt_of_adj_ne_nil hwf hb
  have hfalse : g.isConnected fuel = .ok false := by
    rcases g.isConnected_spec hwf fuel hfuel with
      ⟨_, h, _⟩ | ⟨nz, _, c, _, _, _, _, _, _, h7, h8⟩
    · exact absurd (h a haV) ha
    · cases c with
      | false => exact h7
      | true =>
        have hall := h8.1 rfl
        have h1 := Graph.reach_symm hwf hsym (hall a haV ha)
        exact absurd (Relation.ReflTransGen.trans h1 (hall b hbV hb)) hab
  refine ⟨hfalse, ?_⟩
  unfold Graph.findEulerianCircuit
  rw [hfalse]

/-- C3, at two disjoint edges `0-1` and `2-3`. -/
theorem disconnected_reports_no_circuit_witness :
    twoEdges.isConnected 4 = .ok false ∧
    twoEdges.findEulerianCircuit 4 = .ok (.notConnected, twoEdges) :=
  disconnected_reports_no_circuit twoEdges (by decide) (by decide) 0 2 (by decide) (by decide)
    twoEdges_not_reach 4 (by decide)

/-- C4. On a well-formed graph in which every vertex of non-zero degree is
reachable from every other one (vacuously so when there is no edge),
`isConnected` returns `true`; and the call of `dfs` that it makes, at the
lowest-numbered vertex `nz` of non-zero degree, returns a vector in which every
vertex reachable from `nz` is marked. Symmetry of the lists is not needed. -/
theorem connected_passes_isConnected (g : Graph) (hwf : g.WF)
    (hconn : ∀ a b, g.adj a ≠ [] → g.adj b ≠ [] → g.Reach a b)
    (fuel : Nat) (hfuel : g.V ≤ fuel) :
    g.isConnected fuel = .ok true ∧
    ∀ nz, g.firstNonEmpty g.V 0 = .ok (some nz) →
      (nz < g.V ∧ g.adj nz ≠ [] ∧ ∀ j < nz, g.adj j = []) ∧
      ∃ vis, g.dfs fuel nz (List.replicate g.V false) = .ok vis ∧
        ∀ x : Nat, g.Reach nz x → vis[x]? = some true := by
  rcases g.isConnected_spec hwf fuel hfuel with
    ⟨h1, _, h3⟩ | ⟨nz, vis, b, h1, h2, h3, h4, h5, h6, h7, h8⟩
  · refine ⟨h3, ?_⟩
    intro nz hnz
    rw [h1] at hnz
    cases hnz
  · have hb : b = true := h8.2 (fun j _ hj => hconn nz j h3 hj)
    rw [hb] at h7
    refine ⟨h7, ?_⟩
    intro nz1 hnz1
    rw [h1] at hnz1
    injection hnz1 with hnz1
    injection hnz1 with hnz1
    subst hnz1
    exact ⟨⟨h2, h3, h4⟩, vis, h5, fun x hx => (h6 x).2 hx⟩

/-- C4, at the triangle `0-1, 1-2, 2-0`. -/
theorem connected_passes_isConnected_witness :
    triangle.isConnected 3 = .ok true ∧
    ∀ nz, triangle.firstNonEmpty triangle.V 0 = .ok (some nz) →
      (nz < triangle.V ∧ triangle.adj nz ≠ [] ∧ ∀ j < nz, triangle.adj j = []) ∧
      ∃ vis, triangle.dfs 3 nz (List.replicate triangle.V false) = .ok vis ∧
        ∀ x : Nat, triangle.Reach nz x → vis[x]? = some true :=
  connected_passes_isConnected triangle (by decide) triangle_reach 3 (by decide)

/-- C5. Whenever `findEulerianCircuit` returns with one of its two
"No Eulerian Circuit exists" reports, the graph it leaves is the graph it was
called on: the same `V` and the same adjacency lists. -/
theorem failure_leaves_graph_unchanged (fuel : Nat) (g g1 : Graph) (r : Report)
    (h : g.findEulerianCircuit fuel = .ok (r, g1))
    (hr : r = .notConnected ∨ r = .oddDegree) :
    g1.adjList = g.adjList ∧ g1.V = g.V := by
  unfold Graph.findEulerianCircuit at h
  split at h
  · cases h
  · injection h with h
    injection h with _ h
    rw [← h]
    exact ⟨rfl, rfl⟩
  · split at h
    · cases h
    · injection h with h
      injection h with _ h
      rw [← h]
      exact ⟨rfl, rfl⟩
    · split at h
      · cases h
      · simp only at h
        split at h
        · cases h
        · injection h with h
          injection h with h _
          rw [← h] at hr
          rcases hr with hr | hr <;> cases hr

/-- C5, at the single edge `0-1`, where the even-degree check fails. -/
theorem failure_leaves_graph_unchanged_witness :
    oneEdge.findEulerianCircuit 2 = .ok (.oddDegree, oneEdge) ∧
    oneEdge.adjList = oneEdge.adjList ∧ oneEdge.V = oneEdge.V :=
  ⟨rfl, failure_leaves_graph_unchanged 2 oneEdge oneEdge .oddDegree rfl (Or.inr rfl)⟩

/-- C6. The symmetry invariant (the number of `v` in the list of `u` equals the
number of `u` in the list of `v`, for all vertices `u`, `v`) holds for
`Graph(V)`, and on a graph with `V` lists that satisfies it, `addEdge(u, v)` and
`removeEdge(u, v)` with `u, v < V` (`u = v` included) return a graph that
satisfies it, and so does every iteration of the loop of
`findEulerianCircuit` that returns. -/
theorem symmetry_invariant (V : Nat) (g : Graph) (hlen : g.adjList.length = g.V)
    (hsym : g.Symmetric) (u v : Nat) (hu : u < g.V) (hv : v < g.V) :
    ((Graph.new V).adjList.length = (Graph.new V).V ∧ (Graph.new V).Symmetric) ∧
    (∃ g1, g.addEdge u v = .ok g1 ∧ g1.V = g.V ∧ g1.adjList.length = g1.V ∧ g1.Symmetric) ∧
    (∃ g1, g.removeEdge u v = .ok g1 ∧ g1.V = g.V ∧ g1.adjList.length = g1.V ∧
      g1.Symmetric) ∧
    (∀ (st c : List Nat) (s1 : HState),
      hierholzerStep { g := g, currentPath := st, circuit := c, currentVertex := u } = .ok s1 →
      s1.g.adjList.length = s1.g.V ∧ s1.g.Symmetric) := by
  refine ⟨⟨by simp [Graph.new], ?_⟩, g.addEdge_symmetric hlen hsym hu hv,
    g.removeEdge_symmetric hlen hsym hu hv, ?_⟩
  · intro a _ b _
    rw [adj_new, adj_new]
    rfl
  · intro st c s1 h
    exact hierholzerStep_symmetric _ s1 hlen hsym h

/-- C6, at the triangle, with the self-loop `1-1` added or removed and with the
loop started at vertex `1`. -/
theorem symmetry_invariant_witness :
    ((Graph.new 5).adjList.length = (Graph.new 5).V ∧ (Graph.new 5).Symmetric) ∧
    (∃ g1, triangle.addEdge 1 1 = .ok g1 ∧ g1.V = triangle.V ∧ g1.adjList.length = g1.V ∧
      g1.Symmetric) ∧
    (∃ g1, triangle.removeEdge 1 1 = .ok g1 ∧ g1.V = triangle.V ∧
      g1.adjList.length = g1.V ∧ g1.Symmetric) ∧
    (∀ (st c : List Nat) (s1 : HState),
      hierholzerStep { g := triangle, currentPath := st, circuit := c, currentVertex := 1 } =
        .ok s1 →
      s1.g.adjList.length = s1.g.V ∧ s1.g.Symmetric) :=
  symmetry_invariant 5 triangle (by decide) (by decide) 1 1 (by decide) (by decide)

/-- C7 (fails on the code). The claim says that `removeEdge(u, v)` lowers the
multiplicity `k` of the edge to `k - 1`. On the graph with two parallel edges
`0-1` (`k = 2`) the call `removeEdge(0, 1)` leaves no `1` in the list of `0` and
no `0` in the list of `1`: the multiplicity drops from `2` to `0`, not to `1`. -/
theorem removeEdge_erases_every_copy :
    (doubleEdge.adj 0).count 1 = 2 ∧ (doubleEdge.adj 1).count 0 = 2 ∧
    doubleEdge.removeEdge 0 1 = .ok (Graph.mk 2 [[], []]) ∧
    ((Graph.mk 2 [[], []]).adj 0).count 1 = 0 ∧ ((Graph.mk 2 [[], []]).adj 1).count 0 = 0 :=
  ⟨by decide, by decide, rfl, by decide, by decide⟩

/-- C8 (fails on the code). The claim says that every generated graph has only
even degrees. With `V = 4`, `numEdges = 5` and the draws `0, 2`, generation
finishes with the 4-cycle plus the chord `0-2`: vertices `0` and `2` have degree
`3` and `hasEvenDegree` returns `false`. -/
theorem generate_leaves_odd_degrees :
    (Graph.new 4).generateRandomEvenDegreeGraph 5 [0, 2] =
      .ok (Graph.mk 4 [[1, 3, 2], [0, 2], [1, 3, 0], [2, 0]]) ∧
    (Graph.mk 4 [[1, 3, 2], [0, 2], [1, 3, 0], [2, 0]]).hasEvenDegree = .ok false ∧
    ((Graph.mk 4 [[1, 3, 2], [0, 2], [1, 3, 0], [2, 0]]).adj 0).length = 3 :=
  ⟨rfl, rfl, rfl⟩

/-- C9. For `V ≥ 3` and `numEdges ≤ V`, whatever `rand()` returns, the generator
turns `Graph(V)` into the cycle `0-1, 1-2, …, (V-1)-0`, and on that graph
`findEulerianCircuit` prints `0, V-1, V-2, …, 1, 0`: `V + 1` labels, every vertex
among them, first and last equal, and the consecutive pairs are the `V` edges
of the cycle, each once. All edges are consumed. -/
theorem generated_cycle_circuit (V : Nat) (hV : 3 ≤ V) (numEdges : Int) (hE : numEdges ≤ V)
    (draws : List Nat) (fuel : Nat) (hfuel : 2 * V + 2 ≤ fuel) :
    (Graph.new V).generateRandomEvenDegreeGraph numEdges draws = .ok (cycleGraph V) ∧
    ∃ c, (cycleGraph V).findEulerianCircuit fuel = .ok (.circuit c, Graph.new V) ∧
      c = 0 :: (List.range V).reverse ∧
      c.length = V + 1 ∧ (∀ v < V, v ∈ c) ∧ c.head? = c.getLast? ∧
      (circuitEdges c).Perm (cycleEdges V) := by
  refine ⟨generate_cycle V hV numEdges hE draws, 0 :: (List.range V).reverse,
    cycleGraph_findEulerianCircuit V hV fuel hfuel, rfl, by simp, ?_, ?_, ?_⟩
  · intro v hv
    exact List.mem_cons_of_mem _ (List.mem_reverse.2 (List.mem_range.2 hv))
  · obtain ⟨m, rfl⟩ : ∃ m, V = m + 1 := ⟨V - 1, by omega⟩
    have hrev : 0 :: (List.range (m + 1)).reverse = (List.range (m + 1) ++ [0]).reverse := by
      simp
    conv_rhs => rw [hrev, List.getLast?_reverse, List.range_succ_eq_map]
    rfl
  · rw [circuitEdges_cycle V hV]
    exact List.reverse_perm _

/-- C9, at `V = 4` with `numEdges = 3`. -/
theorem generated_cycle_circuit_witness :
    (Graph.new 4).generateRandomEvenDegreeGraph 3 [] = .ok (cycleGraph 4) ∧
    ∃ c, (cycleGraph 4).findEulerianCircuit 10 = .ok (.circuit c, Graph.new 4) ∧
      c = 0 :: (List.range 4).reverse ∧
      c.length = 4 + 1 ∧ (∀ v < 4, v ∈ c) ∧ c.head? = c.getLast? ∧
      (circuitEdges c).Perm (cycleEdges 4) :=
  generated_cycle_circuit 4 (by decide) 3 (by decide) [] 10 (by decide)

/-- C10. On a well-formed graph with `V > 0`, a budget of `V + 2·(total degree) + 2`
is enough: `isConnected` (and the `dfs` it calls, from any start vertex) returns,
the `while` loop reaches the empty path stack from any start vertex, and
`findEulerianCircuit` returns a report. None of them ends in a fault, so no
index is out of range and no empty stack or list is read. -/
theorem findEulerianCircuit_terminates (g : Graph) (hwf : g.WF) (hV : 0 < g.V)
    (fuel : Nat) (hfuel : g.fuelBound ≤ fuel) :
    (∀ v < g.V, ∃ vis, g.dfs fuel v (List.replicate g.V false) = .ok vis) ∧
    (∃ b, g.isConnected fuel = .ok b) ∧
    (∀ start < g.V, ∃ s1, hierholzerLoop fuel
      { g := g, currentPath := [start], circuit := [], currentVertex := start } = .ok s1 ∧
      s1.currentPath = []) ∧
    (∃ out, g.findEulerianCircuit fuel = .ok out) := by
  have hfuel1 : g.V ≤ fuel := by unfold Graph.fuelBound at hfuel; omega
  refine ⟨?_, ?_, ?_, g.findEulerianCircuit_total hwf hV fuel hfuel⟩
  · intro v hv
    obtain ⟨vis, h, _⟩ := g.dfs_spec hwf fuel v (List.replicate g.V false) (by simp) hv
      (getElem?_replicate_false hv) (by simpa using hfuel1)
    exact ⟨vis, h⟩
  · rcases g.isConnected_spec hwf fuel hfuel1 with
      ⟨_, _, h⟩ | ⟨_, _, b, _, _, _, _, _, _, h, _⟩
    · exact ⟨true, h⟩
    · exact ⟨b, h⟩
  · intro start hstart
    obtain ⟨s1, h1, h2, _, _⟩ := hierholzerLoop_terminates fuel
      { g := g, currentPath := [start], circuit := [], currentVertex := start }
      ⟨hwf, hstart, by simpa using hstart⟩
      (by
        unfold Graph.fuelBound at hfuel
        simp only [HState.measure, List.length_singleton]
        omega)
    exact ⟨s1, h1, h2⟩

/-- C10, at the triangle. -/
theorem findEulerianCircuit_terminates_witness :
    (∀ v < triangle.V, ∃ vis, triangle.dfs 17 v (List.replicate triangle.V false) = .ok vis) ∧
    (∃ b, triangle.isConnected 17 = .ok b) ∧
    (∀ start < triangle.V, ∃ s1, hierholzerLoop 17
      { g := triangle, currentPath := [start], circuit := [], currentVertex := start } = .ok s1 ∧
      s1.currentPath = []) ∧
    (∃ out, triangle.findEulerianCircuit 17 = .ok out) :=
  findEulerianCircuit_terminates triangle (by decide) (by decide) 17 (by decide)

/-! ## Command line -/

theorem processArgsLoop_error (opts : List Opt) :
    ∀ (a : Args) (code : Nat), processArgsLoop opts a = .error code → code = EXIT_FAILURE := by
  induction opts with
  | nil =>
    intro a code h
    cases h
  | cons o rest ih =>
    intro a code h
    cases o with
    | v n => exact ih _ code h
    | e n => exact ih _ code h
    | s n => exact ih _ code h
    | other =>
      injection h with h
      exact h.symm

theorem processArgsLoop_vertices (opts : List Opt) :
    ∀ (a a1 : Args), (∀ n, Opt.v n ∉ opts) → processArgsLoop opts a = .ok a1 →
      a1.vertices = a.vertices := by
  induction opts with
  | nil =>
    intro a a1 _ h
    injection h with h
    rw [h]
  | cons o rest ih =>
    intro a a1 hno h
    have hrest : ∀ n, Opt.v n ∉ rest := fun n hn => hno n (List.mem_cons_of_mem _ hn)
    cases o with
    | v n => exact absurd (List.mem_cons_self _ _) (hno n)
    | e n =>
      have hk := ih _ a1 hrest h
      exact hk
    | s n =>
      have hk := ih _ a1 hrest h
      exact hk
    | other => cases h

theorem processArgsLoop_edges (opts : List Opt) :
    ∀ (a a1 : Args), (∀ n, Opt.e n ∉ opts) → processArgsLoop opts a = .ok a1 →
      a1.edges = a.edges := by
  induction opts with
  | nil =>
    intro a a1 _ h
    injection h with h
    rw [h]
  | cons o rest ih =>
    intro a a1 hno h
    have hrest : ∀ n, Opt.e n ∉ rest := fun n hn => hno n (List.mem_cons_of_mem _ hn)
    cases o with
    | v n =>
      have hk := ih _ a1 hrest h
      exact hk
    | e n => exact absurd (List.mem_cons_self _ _) (hno n)
    | s n =>
      have hk := ih _ a1 hrest h
      exact hk
    | other => cases h

theorem processArgsLoop_seed (opts : List Opt) :
    ∀ (a a1 : Args), (∀ n, Opt.s n ∉ opts) → processArgsLoop opts a = .ok a1 →
      a1.seed = a.seed := by
  induction opts with
  | nil =>
    intro a a1 _ h
    injection h with h
    rw [h]
  | cons o rest ih =>
    intro a a1 hno h
    have hrest : ∀ n, Opt.s n ∉ rest := fun n hn => hno n (List.mem_cons_of_mem _ hn)
    cases o with
    | v n =>
      have hk := ih _ a1 hrest h
      exact hk
    | e n =>
      have hk := ih _ a1 hrest h
      exact hk
    | s n => exact absurd (List.mem_cons_self _ _) (hno n)
    | other => cases h

theorem processArgs_ok_iff (opts : List Opt) (a a1 : Args) :
    processArgs opts a = .ok a1 ↔
      processArgsLoop opts a = .ok a1 ∧ 0 < a1.vertices ∧ 0 ≤ a1.edges ∧ 0 < a1.seed := by
  unfold processArgs
  cases hl : processArgsLoop opts a with
  | error code => simp
  | ok a2 =>
    simp only []
    by_cases hc : a2.vertices ≤ 0 ∨ a2.edges < 0 ∨ a2.seed ≤ 0
    · rw [if_pos hc]
      constructor
      · intro h
        cases h
      · rintro ⟨h, h1, h2, h3⟩
        injection h with h
        subst h
        omega
    · rw [if_neg hc]
      constructor
      · intro h
        injection h with h
        subst h
        exact ⟨rfl, by omega, by omega, by omega⟩
      · rintro ⟨h, _⟩
        exact h

theorem processArgs_error (opts : List Opt) (a : Args) (code : Nat)
    (h : processArgs opts a = .error code) : code = EXIT_FAILURE := by
  unfold processArgs at h
  cases hl : processArgsLoop opts a with
  | error c2 =>
    rw [hl] at h
    injection h with h
    rw [← h]
    exact processArgsLoop_error opts a c2 hl
  | ok a2 =>
    rw [hl] at h
    simp only [] at h
    split at h
    · injection h with h
      exact h.symm
    · cases h

/-- C11. `isConnected` and `hasEvenDegree` only read `V` and `adjList` (in
the embedding they are functions of the graph, so the graph after a call is the
graph before it), and on a well-formed graph their results are determined by
the graph alone: two calls of `isConnected`, whatever their sufficient
recursion budgets, return the same Boolean, and `hasEvenDegree` returns a
Boolean that says whether all degrees are even. -/
theorem checks_repeatable (g : Graph) (hwf : g.WF) (fuel1 fuel2 : Nat)
    (h1 : g.V ≤ fuel1) (h2 : g.V ≤ fuel2) :
    ∃ c e, g.isConnected fuel1 = .ok c ∧ g.isConnected fuel2 = .ok c ∧
      g.hasEvenDegree = .ok e ∧ (e = true ↔ g.EvenDegrees) := by
  obtain ⟨e, he1, he2⟩ := g.hasEvenDegree_spec hwf
  rcases g.isConnected_spec hwf fuel1 h1 with
    ⟨hf1, _, ha⟩ | ⟨nz1, _, b1, hf1, _, _, _, _, _, ha, hb1⟩
  · rcases g.isConnected_spec hwf fuel2 h2 with
      ⟨_, _, hc⟩ | ⟨nz2, _, b2, hf2, _, _, _, _, _, hc, _⟩
    · exact ⟨true, e, ha, hc, he1, he2⟩
    · rw [hf1] at hf2
      cases hf2
  · rcases g.isConnected_spec hwf fuel2 h2 with
      ⟨hf2, _, _⟩ | ⟨nz2, _, b2, hf2, _, _, _, _, _, hc, hb2⟩
    · rw [hf1] at hf2
      cases hf2
    · rw [hf1] at hf2
      injection hf2 with hf2
      injection hf2 with hf2
      subst hf2
      have hb : b1 = b2 := by
        have hiff : (b1 = true ↔ b2 = true) := hb1.trans hb2.symm
        cases b1 <;> cases b2 <;> simp_all
      subst hb
      exact ⟨b1, e, ha, hc, he1, he2⟩

/-- C11, at the triangle with budgets `3` and `7`. -/
theorem checks_repeatable_witness :
    ∃ c e, triangle.isConnected 3 = .ok c ∧ triangle.isConnected 7 = .ok c ∧
      triangle.hasEvenDegree = .ok e ∧ (e = true ↔ triangle.EvenDegrees) :=
  checks_repeatable triangle (by decide) 3 7 (by decide) (by decide)

/-- C12 (refuted as stated). A command line with `-v 4 -s 1` and no `-e` is
accepted: `edges` keeps the default `0`, which passes the check `edges < 0`. -/
theorem missing_e_flag_accepted :
    ¬ (∀ opts : List Opt,
        ((∀ n, Opt.v n ∉ opts) ∨ (∀ n, Opt.e n ∉ opts) ∨ (∀ n, Opt.s n ∉ opts)) →
        ∃ code, code ≠ 0 ∧ processArgs opts mainDefaults = .error code) := by
  intro h
  obtain ⟨code, _, hc⟩ := h [Opt.v 4, Opt.s 1] (Or.inr (Or.inl (by simp)))
  have hok : processArgs [Opt.v 4, Opt.s 1] mainDefaults =
      .ok { vertices := 4, edges := 0, seed := 1 } := rfl
  rw [hok] at hc
  cases hc

/-- C12 (as amended). If `-v` or `-s` is missing from the command line,
`processArgs` exits with `EXIT_FAILURE`, which is not `0`: the variable keeps
the default `0` that `main` gave it and the check rejects it. A missing `-e`
is not detected: whenever `processArgs` returns on a command line without
`-e`, `edges` is the default `0`. -/
theorem missing_v_or_s_flag_exits (opts : List Opt)
    (h : (∀ n, Opt.v n ∉ opts) ∨ (∀ n, Opt.s n ∉ opts)) :
    processArgs opts mainDefaults = .error EXIT_FAILURE ∧ EXIT_FAILURE ≠ 0 ∧
    (∀ (opts1 : List Opt) (a1 : Args), (∀ n, Opt.e n ∉ opts1) →
      processArgs opts1 mainDefaults = .ok a1 → a1.edges = 0) := by
  refine ⟨?_, by decide, ?_⟩
  · cases hp : processArgs opts mainDefaults with
    | error code => rw [processArgs_error opts mainDefaults code hp]
    | ok a1 =>
      obtain ⟨hl, hv, _, hs⟩ := (processArgs_ok_iff opts mainDefaults a1).1 hp
      rcases h with h | h
      · have := processArgsLoop_vertices opts mainDefaults a1 h hl
        rw [this] at hv
        exact absurd hv (by decide)
      · have := processArgsLoop_seed opts mainDefaults a1 h hl
        rw [this] at hs
        exact absurd hs (by decide)
  · intro opts1 a1 hno hp
    obtain ⟨hl, _⟩ := (processArgs_ok_iff opts1 mainDefaults a1).1 hp
    exact processArgsLoop_edges opts1 mainDefaults a1 hno hl

/-- C12 (as amended), at the command line `-e 3 -s 7`, which has no `-v`. -/
theorem missing_v_or_s_flag_exits_witness :
    processArgs [Opt.e 3, Opt.s 7] mainDefaults = .error EXIT_FAILURE ∧ EXIT_FAILURE ≠ 0 ∧
    (∀ (opts1 : List Opt) (a1 : Args), (∀ n, Opt.e n ∉ opts1) →
      processArgs opts1 mainDefaults = .ok a1 → a1.edges = 0) :=
  missing_v_or_s_flag_exits [Opt.e 3, Opt.s 7] (Or.inl (by simp))

/-- C13 (fails on the code). The claim says that `processArgs` exits whenever
the integer given to `-s` is `≤ 0`. With `-v 4 -e 4 -s -5` it returns:
`atoi` gives `-5`, the assignment to the `unsigned` seed stores
`4294967291`, and `seed <= 0` is false. -/
theorem negative_seed_accepted :
    processArgs [Opt.v 4, Opt.e 4, Opt.s (-5)] mainDefaults =
      .ok { vertices := 4, edges := 4, seed := 4294967291 } ∧
    processArgs [Opt.v 4, Opt.e 4, Opt.s 0] mainDefaults = .error EXIT_FAILURE ∧
    processArgs [Opt.v (-5), Opt.e 4, Opt.s 1] mainDefaults = .error EXIT_FAILURE ∧
    processArgs [Opt.v 4, Opt.e (-5), Opt.s 1] mainDefaults = .error EXIT_FAILURE :=
  ⟨rfl, rfl, rfl, rfl⟩

/-- C15 (refuted as stated). On the triangle the loop builds the list
`0, 2, 1, 0` and the method reports that very list; its reverse is `0, 1, 2, 0`. -/
theorem reported_sequence_not_reversed :
    ∃ s, hierholzerLoop 17
        { g := triangle, currentPath := [0], circuit := [], currentVertex := 0 } = .ok s ∧
      triangle.findEulerianCircuit 17 = .ok (.circuit [0, 2, 1, 0], Graph.new 3) ∧
      s.circuit = [0, 2, 1, 0] ∧ ([0, 2, 1, 0] : List Nat) ≠ s.circuit.reverse :=
  ⟨{ g := Graph.new 3, currentPath := [], circuit := [0, 2, 1, 0], currentVertex := 0 },
    rfl, rfl, rfl, by decide⟩

/-- C15 (as amended). The sequence that `findEulerianCircuit` reports is the
list `circuit` with which the loop ends, from its first element to its last:
the method prints it in the order in which the vertices were appended and
does not reverse it. The loop starts at the first vertex of non-zero degree,
or at `0` when there is none. -/
theorem reported_sequence_is_output_list (fuel : Nat) (g g1 : Graph) (c : List Nat)
    (h : g.findEulerianCircuit fuel = .ok (.circuit c, g1)) :
    ∃ start s, g.firstNonEmpty g.V 0 = .ok start ∧
      hierholzerLoop fuel
        { g := g, currentPath := [start.getD 0], circuit := [],
          currentVertex := start.getD 0 } = .ok s ∧
      c = s.circuit ∧ g1 = s.g := by
  unfold Graph.findEulerianCircuit at h
  split at h
  · cases h
  · injection h with h
    injection h with h _
    cases h
  · split at h
    · cases h
    · injection h with h
      injection h with h _
      cases h
    · split at h
      · cases h
      · rename_i start hstart
        simp only at h
        split at h
        · cases h
        · rename_i s hs
          injection h with h
          injection h with h3 h4
          injection h3 with h3
          exact ⟨start, s, hstart, hs, h3.symm, h4.symm⟩

/-- C15 (as amended), at the triangle. -/
theorem reported_sequence_is_output_list_witness :
    ∃ start s, triangle.firstNonEmpty triangle.V 0 = .ok start ∧
      hierholzerLoop 17
        { g := triangle, currentPath := [start.getD 0], circuit := [],
          currentVertex := start.getD 0 } = .ok s ∧
      [0, 2, 1, 0] = s.circuit ∧ Graph.new 3 = s.g :=
  reported_sequence_is_output_list 17 triangle (Graph.new 3) [0, 2, 1, 0] rfl

theorem Graph.totalDegree_eq_zero (g : Graph) (hempty : ∀ i, g.adj i = []) :
    g.totalDegree = 0 := by
  rw [g.totalDegree_eq]
  apply List.sum_eq_zero
  intro x hx
  obtain ⟨i, _, hi⟩ := List.mem_map.1 hx
  rw [← hi, hempty i]
  rfl

/-- C16. On a graph with `V > 0` whose lists are all empty, `isConnected` returns
`true`, the scan for a vertex of non-zero degree finds none so that the start
vertex stays `0`, and `findEulerianCircuit` reports the one-element sequence `0`
and leaves the graph as it was; the graph has `E = 0` edges, so the length is
`E + 1`. -/
theorem edgeless_circuit (g : Graph) (hV : 0 < g.V) (hlen : g.adjList.length = g.V)
    (hempty : ∀ i, g.adj i = []) (fuel : Nat) (hfuel : 2 ≤ fuel) :
    g.isConnected fuel = .ok true ∧ g.firstNonEmpty g.V 0 = .ok none ∧
    g.findEulerianCircuit fuel = .ok (.circuit [0], g) ∧
    g.numEdges = 0 ∧ [0].length = g.numEdges + 1 := by
  have hwf : g.WF := by
    rw [Graph.WF_iff]
    refine ⟨hlen, ?_⟩
    intro i w hw
    rw [hempty i] at hw
    cases hw
  have hfirst : g.firstNonEmpty g.V 0 = .ok none := by
    rcases g.firstNonEmpty_spec g.V 0 (by rw [hlen]; omega) with ⟨h, _⟩ | ⟨k, _, _, _, h, _⟩
    · exact h
    · exact absurd (hempty k) h
  have hconn : g.isConnected fuel = .ok true := by
    unfold Graph.isConnected
    rw [hfirst]
  have heven : g.hasEvenDegree = .ok true := by
    obtain ⟨b, hb1, hb2⟩ := g.hasEvenDegree_spec hwf
    have : b = true := hb2.2 (fun i _ => by rw [hempty i]; rfl)
    rw [hb1, this]
  have hE : g.numEdges = 0 := by
    unfold Graph.numEdges
    rw [g.totalDegree_eq_zero hempty]
  obtain ⟨f, rfl⟩ : ∃ f, fuel = f + 1 + 1 := ⟨fuel - 2, by omega⟩
  have hstep := hierholzerStep_backward g 0 [] [] 0 (by rw [hlen]; exact hV) (hempty 0)
  have hloop : hierholzerLoop (f + 1 + 1)
      { g := g, currentPath := [0], circuit := [], currentVertex := 0 } =
      .ok { g := g, currentPath := [], circuit := [0], currentVertex := 0 } := by
    rw [hierholzerLoop_succ _ _ _ (by simp) hstep]
    rfl
  refine ⟨hconn, hfirst, ?_, hE, by rw [hE]; rfl⟩
  unfold Graph.findEulerianCircuit
  rw [hconn]
  simp only [heven, hfirst, Option.getD_none, hloop]

/-- C16, at the graph with three vertices and no edge. -/
theorem edgeless_circuit_witness :
    (Graph.new 3).isConnected 2 = .ok true ∧
    (Graph.new 3).firstNonEmpty (Graph.new 3).V 0 = .ok none ∧
    (Graph.new 3).findEulerianCircuit 2 = .ok (.circuit [0], Graph.new 3) ∧
    (Graph.new 3).numEdges = 0 ∧ [0].length = (Graph.new 3).numEdges + 1 :=
  edgeless_circuit (Graph.new 3) (by decide) (by decide) (fun i => adj_new 3 i) 2 (by decide)

/-! ## Generation in general -/

theorem sum_length_modify (f : List Nat → List Nat) :
    ∀ (L : List (List Nat)) (i : Nat), i < L.length →
      ((List.modify f i L).map List.length).sum + ((L[i]?).getD []).length =
        (L.map List.length).sum + (f ((L[i]?).getD [])).length := by
  intro L
  induction L with
  | nil =>
    intro i hi
    simp at hi
  | cons a t ih =>
    intro i hi
    cases i with
    | zero =>
      simp [List.modify, List.modifyTailIdx]
      omega
    | succ i =>
      have := ih i (by simpa using hi)
      simp only [List.modify_succ_cons, List.map_cons, List.sum_cons, List.getElem?_cons_succ]
      omega

theorem Graph.addEdge_ok_lt (g g1 : Graph) (u v : Nat) (h : g.addEdge u v = .ok g1) :
    u < g.adjList.length ∧ v < g.adjList.length := by
  unfold Graph.addEdge at h
  by_cases hu : u < g.adjList.length
  · rw [if_pos hu] at h
    simp only [List.length_modify] at h
    by_cases hv : v < g.adjList.length
    · exact ⟨hu, hv⟩
    · rw [if_neg hv] at h
      cases h
  · rw [if_neg hu] at h
    cases h

theorem Graph.addEdge_totalDegree (g g1 : Graph) (u v : Nat) (h : g.addEdge u v = .ok g1) :
    g1.totalDegree = g.totalDegree + 2 := by
  obtain ⟨hu, hv⟩ := g.addEdge_ok_lt g1 u v h
  unfold Graph.addEdge at h
  rw [if_pos hu] at h
  simp only [List.length_modify] at h
  rw [if_pos hv] at h
  injection h with h
  rw [← h]
  unfold Graph.totalDegree
  simp only []
  have h1 := sum_length_modify (fun l => l ++ [v]) g.adjList u hu
  have h2 := sum_length_modify (fun l => l ++ [u])
    (List.modify (fun l => l ++ [v]) u g.adjList) v (by simpa using hv)
  simp only [List.length_append, List.length_singleton] at h1 h2
  omega

theorem Graph.addEdge_V (g g1 : Graph) (u v : Nat) (h : g.addEdge u v = .ok g1) :
    g1.V = g.V := by
  obtain ⟨hu, hv⟩ := g.addEdge_ok_lt g1 u v h
  obtain ⟨g2, k1, k2, _, _⟩ := g.addEdge_spec hu hv
  rw [h] at k1
  injection k1 with k1
  rw [k1]
  exact k2

theorem cycleLoop_invariant (P : Nat → Graph → Prop)
    (hstep : ∀ i g g1, P i g → g.addEdge i ((i + 1) % g.V) = .ok g1 → P (i + 1) g1) :
    ∀ n i g g1, P i g → Graph.cycleLoop n i g = .ok g1 → P (i + n) g1 := by
  intro n
  induction n with
  | zero =>
    intro i g g1 hP h
    unfold Graph.cycleLoop at h
    injection h with h
    rw [← h]
    exact hP
  | succ n ih =>
    intro i g g1 hP h
    unfold Graph.cycleLoop at h
    split at h
    · cases h
    · rename_i g2 hadd
      have := ih (i + 1) g2 g1 (hstep i g g2 hP hadd) h
      rw [show i + (n + 1) = i + 1 + n by omega]
      exact this

theorem two_step_induction {P : List Nat → Prop} (h0 : P []) (h1 : ∀ a, P [a])
    (h2 : ∀ a b rest, P rest → P (a :: b :: rest)) : ∀ l, P l := by
  have key : ∀ l, P l ∧ ∀ a, P (a :: l) := by
    intro l
    induction l with
    | nil => exact ⟨h0, h1⟩
    | cons b rest ih => exact ⟨ih.2 b, fun a => h2 a b rest ih.1⟩
  exact fun l => (key l).1

theorem randomLoop_invariant (numEdges : Int) (P : Nat → Graph → Prop)
    (hstep : ∀ ec g r1 r2 g1, P ec g → r1 % g.V ≠ r2 % g.V →
      g.edgeExists (r1 % g.V) (r2 % g.V) = .ok false →
      g.addEdge (r1 % g.V) (r2 % g.V) = .ok g1 → (ec : Int) < numEdges → P (ec + 1) g1) :
    ∀ draws ec g g1, P ec g → Graph.randomLoop numEdges draws ec g = .ok g1 →
      ∃ ec1, P ec1 g1 ∧ ¬ ((ec1 : Int) < numEdges) := by
  intro draws
  induction draws using two_step_induction with
  | h0 =>
    intro ec g g1 hP h
    unfold Graph.randomLoop at h
    split at h
    · cases h
    · rename_i hlt
      injection h with h
      rw [← h]
      exact ⟨ec, hP, hlt⟩
  | h1 a =>
    intro ec g g1 hP h
    unfold Graph.randomLoop at h
    split at h
    · cases h
    · rename_i hlt
      injection h with h
      rw [← h]
      exact ⟨ec, hP, hlt⟩
  | h2 r1 r2 rest ih =>
    intro ec g g1 hP h
    unfold Graph.randomLoop at h
    split at h
    · rename_i hlt
      simp only at h
      split at h
      · rename_i hne
        split at h
        · cases h
        · exact ih ec g g1 hP h
        · rename_i hex
          split at h
          · cases h
          · rename_i g2 hadd
            exact ih (ec + 1) g2 g1
              (hstep ec g r1 r2 g2 hP (by simpa using hne) hex hadd hlt) h
      · exact ih ec g g1 hP h
    · rename_i hlt
      injection h with h
      rw [← h]
      exact ⟨ec, hP, hlt⟩

theorem Graph.edgeExists_false (g : Graph) (u v : Nat) (h : g.edgeExists u v = .ok false) :
    v ∉ g.adj u := by
  unfold Graph.edgeExists at h
  split at h
  · cases h
  · rename_i l hl
    injection h with h
    have hadj : g.adj u = l := by
      unfold Graph.adj
      rw [hl]
      rfl
    rw [hadj]
    intro hmem
    have : l.any (fun neighbor => neighbor == v) = true :=
      List.any_eq_true.2 ⟨v, hmem, by simp⟩
    rw [this] at h
    cases h

theorem Graph.addEdge_WF (g g1 : Graph) (u v : Nat) (hwf : g.WF)
    (h : g.addEdge u v = .ok g1) : g1.WF ∧ g1.V = g.V ∧
      (∀ w x, x ∈ g.adj w → x ∈ g1.adj w) ∧ v ∈ g1.adj u ∧ u ∈ g1.adj v := by
  obtain ⟨hu, hv⟩ := g.addEdge_ok_lt g1 u v h
  obtain ⟨g2, k1, k2, k3, k4⟩ := g.addEdge_spec hu hv
  rw [h] at k1
  injection k1 with k1
  subst k1
  have huV : u < g.V := by rw [← hwf.1]; exact hu
  have hvV : v < g.V := by rw [← hwf.1]; exact hv
  refine ⟨?_, k2, ?_, ?_, ?_⟩
  · rw [Graph.WF_iff]
    refine ⟨by rw [k3, k2]; exact hwf.1, ?_⟩
    intro i w hw
    rw [k2]
    rw [k4 i] at hw
    split at hw
    · split at hw
      · simp only [List.mem_append, List.mem_singleton] at hw
        rcases hw with (hw | hw) | hw
        · exact hwf.lt_of_mem_adj hw
        · rw [hw]; exact hvV
        · rw [hw]; exact huV
      · simp only [List.mem_append, List.mem_singleton] at hw
        rcases hw with hw | hw
        · exact hwf.lt_of_mem_adj hw
        · rw [hw]; exact hvV
    · split at hw
      · simp only [List.mem_append, List.mem_singleton] at hw
        rcases hw with hw | hw
        · exact hwf.lt_of_mem_adj hw
        · rw [hw]; exact huV
      · exact hwf.lt_of_mem_adj hw
  · intro w x hx
    rw [k4 w]
    split
    · rename_i hwu
      subst hwu
      split <;> simp [hx]
    · split
      · rename_i hwv
        subst hwv
        simp [hx]
      · exact hx
  · rw [k4 u, if_pos rfl]
    split <;> simp
  · rw [k4 v]
    split
    · rename_i hvu
      split
      · simp
      · rename_i hne
        exact absurd hvu.symm hne
    · simp

theorem Graph.addEdge_good (g : Graph) (hg : g.Good) (u v : Nat) (hu : u < g.V)
    (hv : v < g.V) (hne : u ≠ v) (hnot : v ∉ g.adj u) :
    ∃ g1, g.addEdge u v = .ok g1 ∧ g1.Good ∧ g1.V = g.V := by
  obtain ⟨hwf, hsym, hsimple⟩ := hg
  obtain ⟨g1, h1, h2, h3, h4⟩ := g.addEdge_symmetric hwf.1 hsym hu hv
  obtain ⟨k1, _, _, _, _⟩ := g.addEdge_WF g1 u v hwf h1
  obtain ⟨g2, j1, _, _, j4⟩ := g.addEdge_spec (by rw [hwf.1]; exact hu : u < g.adjList.length)
    (by rw [hwf.1]; exact hv : v < g.adjList.length)
  rw [h1] at j1
  injection j1 with j1
  subst j1
  have hnot2 : u ∉ g.adj v := by
    intro hmem
    have hc := hsym u hu v hv
    have hpos : 0 < (g.adj v).count u := List.count_pos_iff.2 hmem
    exact hnot (List.count_pos_iff.1 (by omega))
  refine ⟨g1, h1, ⟨k1, h4, ?_⟩, h2⟩
  intro w hw
  rw [h2] at hw
  obtain ⟨hnd, hself⟩ := hsimple w hw
  rw [j4 w]
  by_cases hwu : w = u
  · subst hwu
    rw [if_pos rfl, if_neg hne]
    refine ⟨?_, ?_⟩
    · rw [List.nodup_append]
      refine ⟨hnd, List.nodup_singleton _, ?_⟩
      intro a ha hb
      rw [List.mem_singleton] at hb
      rw [hb] at ha
      exact hnot ha
    · simp only [List.mem_append, List.mem_singleton]
      rintro (h | h)
      · exact hself h
      · exact hne h
  · rw [if_neg hwu]
    by_cases hwv : w = v
    · subst hwv
      rw [if_pos rfl]
      refine ⟨?_, ?_⟩
      · rw [List.nodup_append]
        refine ⟨hnd, List.nodup_singleton _, ?_⟩
        intro a ha hb
        rw [List.mem_singleton] at hb
        rw [hb] at ha
        exact hnot2 ha
      · simp only [List.mem_append, List.mem_singleton]
        rintro (h | h)
        · exact hself h
        · exact hwu h
    · rw [if_neg hwv]
      exact ⟨hnd, hself⟩

theorem new_WF (V : Nat) : (Graph.new V).WF := by
  rw [Graph.WF_iff]
  refine ⟨by simp [Graph.new], ?_⟩
  intro i w hw
  rw [adj_new] at hw
  cases hw

theorem new_good (V : Nat) : (Graph.new V).Good := by
  refine ⟨new_WF V, ?_, ?_⟩
  · intro a _ b _
    rw [adj_new, adj_new]
    rfl
  · intro u _
    rw [adj_new]
    exact ⟨List.nodup_nil, List.not_mem_nil _⟩

theorem generate_split (g g1 : Graph) (numEdges : Int) (draws : List Nat)
    (h : g.generateRandomEvenDegreeGraph numEdges draws = .ok g1) :
    ∃ gc, Graph.cycleLoop g.V 0 g = .ok gc ∧ Graph.randomLoop numEdges draws g.V gc = .ok g1 := by
  unfold Graph.generateRandomEvenDegreeGraph at h
  split at h
  · cases h
  · rename_i gc hc
    exact ⟨gc, hc, h⟩

/-- C20. Whenever generation on `Graph(V)` finishes, the total length of the
lists of the graph is twice `max(V, numEdges)`, so the graph has exactly
`max(V, numEdges)` edges; in particular `V` of them when `numEdges < V`. -/
theorem generated_edge_count (V : Nat) (_hV : 0 < V) (numEdges : Int) (_hE : 0 ≤ numEdges)
    (draws : List Nat) (g1 : Graph)
    (h : (Graph.new V).generateRandomEvenDegreeGraph numEdges draws = .ok g1) :
    (g1.totalDegree : Int) = 2 * max (V : Int) numEdges ∧
    (g1.numEdges : Int) = max (V : Int) numEdges ∧
    (numEdges < V → g1.numEdges = V) := by
  obtain ⟨gc, hc, hr⟩ := generate_split _ _ _ _ h
  have h1 := cycleLoop_invariant (fun i g => g.totalDegree = 2 * i)
    (by
      intro i g g2 hP hadd
      show g2.totalDegree = 2 * (i + 1)
      have hP1 : g.totalDegree = 2 * i := hP
      rw [g.addEdge_totalDegree g2 _ _ hadd, hP1]
      omega)
    (Graph.new V).V 0 (Graph.new V) gc (Graph.totalDegree_eq_zero _ (adj_new V)) hc
  simp only [Graph.new, Nat.zero_add] at h1
  obtain ⟨ec1, ⟨k1, k2, k3⟩, k4⟩ := randomLoop_invariant numEdges
    (fun ec g => g.totalDegree = 2 * ec ∧ V ≤ ec ∧ (ec : Int) ≤ max (V : Int) numEdges)
    (by
      intro ec g r1 r2 g2 hP _ _ hadd hlt
      obtain ⟨p1, p2, p3⟩ := hP
      refine ⟨?_, by omega, ?_⟩
      · rw [g.addEdge_totalDegree g2 _ _ hadd, p1]
        omega
      · have : numEdges ≤ max (V : Int) numEdges := le_max_right _ _
        push_cast
        omega)
    draws (Graph.new V).V gc g1 ⟨h1, le_refl _, le_max_left _ _⟩ hr
  have hmax : (ec1 : Int) = max (V : Int) numEdges := by
    apply le_antisymm k3
    apply max_le
    · exact_mod_cast k2
    · omega
  have htot : (g1.totalDegree : Int) = 2 * max (V : Int) numEdges := by
    rw [← hmax, k1]
    push_cast
    rfl
  have hnum : g1.numEdges = ec1 := by
    unfold Graph.numEdges
    rw [k1]
    omega
  refine ⟨htot, by rw [hnum]; exact hmax, ?_⟩
  intro hlt
  rw [hnum]
  have : max (V : Int) numEdges = V := max_eq_left (le_of_lt hlt)
  rw [this] at hmax
  exact_mod_cast hmax

/-- C20, at `V = 4`, `numEdges = 5` and the draws `0, 2`. -/
theorem generated_edge_count_witness :
    ((Graph.mk 4 [[1, 3, 2], [0, 2], [1, 3, 0], [2, 0]]).totalDegree : Int) =
      2 * max ((4 : Nat) : Int) 5 ∧
    ((Graph.mk 4 [[1, 3, 2], [0, 2], [1, 3, 0], [2, 0]]).numEdges : Int) =
      max ((4 : Nat) : Int) 5 ∧
    ((5 : Int) < (4 : Nat) → (Graph.mk 4 [[1, 3, 2], [0, 2], [1, 3, 0], [2, 0]]).numEdges = 4) :=
  generated_edge_count 4 (by decide) 5 (by decide) [0, 2]
    (Graph.mk 4 [[1, 3, 2], [0, 2], [1, 3, 0], [2, 0]]) rfl

/-- The generated graph contains the edge from every vertex to its successor
on the cycle. -/
theorem generated_has_cycle (V : Nat) (numEdges : Int) (draws : List Nat) (g1 : Graph)
    (h : (Graph.new V).generateRandomEvenDegreeGraph numEdges draws = .ok g1) :
    g1.WF ∧ g1.V = V ∧ ∀ j < V, (j + 1) % V ∈ g1.adj j := by
  obtain ⟨gc, hc, hr⟩ := generate_split _ _ _ _ h
  have h1 := cycleLoop_invariant
    (fun i g => g.WF ∧ g.V = V ∧ ∀ j < i, (j + 1) % V ∈ g.adj j)
    (by
      intro i g g2 hP hadd
      obtain ⟨p1, p2, p3⟩ := hP
      obtain ⟨q1, q2, q3, q4, _⟩ := g.addEdge_WF g2 _ _ p1 hadd
      refine ⟨q1, by rw [q2, p2], ?_⟩
      intro j hj
      by_cases hji : j = i
      · subst hji
        rw [p2] at q4
        exact q4
      · exact q3 _ _ (p3 j (by omega)))
    (Graph.new V).V 0 (Graph.new V) gc
    ⟨new_WF V, rfl, fun j hj => absurd hj (Nat.not_lt_zero _)⟩ hc
  simp only [Graph.new, Nat.zero_add] at h1
  obtain ⟨_, k1, _⟩ := randomLoop_invariant numEdges
    (fun _ g => g.WF ∧ g.V = V ∧ ∀ j < V, (j + 1) % V ∈ g.adj j)
    (by
      intro ec g r1 r2 g2 hP _ _ hadd _
      obtain ⟨p1, p2, p3⟩ := hP
      obtain ⟨q1, q2, q3, _, _⟩ := g.addEdge_WF g2 _ _ p1 hadd
      exact ⟨q1, by rw [q2, p2], fun j hj => q3 _ _ (p3 j hj)⟩)
    draws (Graph.new V).V gc g1 h1 hr
  exact k1

/-- C18. Whenever generation on `Graph(V)`, `V > 0`, finishes, the generated
graph contains the edges `j - (j+1) mod V` of the cycle through all vertices,
`isConnected` returns `true` on it, and `findEulerianCircuit` does not report
"Graph is not connected". -/
theorem generated_graph_connected (V : Nat) (hV : 0 < V) (numEdges : Int) (draws : List Nat)
    (g1 : Graph) (h : (Graph.new V).generateRandomEvenDegreeGraph numEdges draws = .ok g1)
    (fuel : Nat) (hfuel : V ≤ fuel) :
    (∀ j < V, (j + 1) % V ∈ g1.adj j) ∧
    g1.isConnected fuel = .ok true ∧
    ∀ r g2, g1.findEulerianCircuit fuel = .ok (r, g2) → r ≠ .notConnected := by
  obtain ⟨hwf, hgV, hcyc⟩ := generated_has_cycle V numEdges draws g1 h
  have hreach : ∀ j, j < V → g1.Reach 0 j := by
    intro j
    induction j with
    | zero => intro _; exact Relation.ReflTransGen.refl
    | succ j ih =>
      intro hj
      refine Relation.ReflTransGen.tail (ih (by omega)) ?_
      have := hcyc j (by omega)
      rw [Nat.mod_eq_of_lt hj] at this
      exact this
  have hconn : g1.isConnected fuel = .ok true := by
    rcases g1.isConnected_spec hwf fuel (by rw [hgV]; exact hfuel) with
      ⟨_, _, hc⟩ | ⟨nz, _, b, _, _, _, h4, _, _, h7, h8⟩
    · exact hc
    · have hnz : nz = 0 := by
        by_contra hnz
        have h0 := h4 0 (by omega)
        have hm := hcyc 0 hV
        rw [h0] at hm
        cases hm
      subst hnz
      have hb : b = true := h8.2 (fun j hj _ => hreach j (by rw [← hgV]; exact hj))
      rw [h7, hb]
  refine ⟨hcyc, hconn, ?_⟩
  intro r g2 hf hr
  unfold Graph.findEulerianCircuit at hf
  rw [hconn] at hf
  simp only at hf
  subst hr
  split at hf
  · cases hf
  · injection hf with hf
    injection hf with hf _
    cases hf
  · split at hf
    · cases hf
    · split at hf
      · cases hf
      · injection hf with hf
        injection hf with hf _
        cases hf

/-- C18, at `V = 4`, `numEdges = 5` and the draws `0, 2`. -/
theorem generated_graph_connected_witness :
    (∀ j < 4, (j + 1) % 4 ∈ (Graph.mk 4 [[1, 3, 2], [0, 2], [1, 3, 0], [2, 0]]).adj j) ∧
    (Graph.mk 4 [[1, 3, 2], [0, 2], [1, 3, 0], [2, 0]]).isConnected 4 = .ok true ∧
    ∀ r g2, (Graph.mk 4 [[1, 3, 2], [0, 2], [1, 3, 0], [2, 0]]).findEulerianCircuit 4 =
      .ok (r, g2) → r ≠ .notConnected :=
  generated_graph_connected 4 (by decide) 5 [0, 2]
    (Graph.mk 4 [[1, 3, 2], [0, 2], [1, 3, 0], [2, 0]]) rfl 4 (by decide)

theorem cycleLoop_first_iterations (V : Nat) :
    ∀ n i, i + n < V →
      Graph.cycleLoop n i (Graph.mk V ((List.range V).map (pathAdj i))) =
        .ok (Graph.mk V ((List.range V).map (pathAdj (i + n)))) := by
  intro n
  induction n with
  | zero =>
    intro i _
    rfl
  | succ n ih =>
    intro i hi
    unfold Graph.cycleLoop
    simp only []
    rw [addEdge_path V i (by omega)]
    simp only []
    rw [ih (i + 1) (by omega), show i + 1 + n = i + (n + 1) by omega]

theorem cycleLoop_step_good (V : Nat) (hV : 3 ≤ V) (i : Nat) (g g2 : Graph)
    (hP : g.Good ∧ g.V = V ∧ (i < V → g = Graph.mk V ((List.range V).map (pathAdj i))))
    (hadd : g.addEdge i ((i + 1) % g.V) = .ok g2) :
    g2.Good ∧ g2.V = V ∧ (i + 1 < V → g2 = Graph.mk V ((List.range V).map (pathAdj (i + 1)))) := by
  obtain ⟨p1, p2, p3⟩ := hP
  have hiV : i < V := by
    have := (g.addEdge_ok_lt g2 _ _ hadd).1
    rw [p1.1.1, p2] at this
    exact this
  have hg := p3 hiV
  rw [p2] at hadd
  have hvV : (i + 1) % V < V := Nat.mod_lt _ (by omega)
  have hne : i ≠ (i + 1) % V := by
    by_cases h1 : i + 1 < V
    · rw [Nat.mod_eq_of_lt h1]; omega
    · have : i + 1 = V := by omega
      rw [this, Nat.mod_self]; omega
  have hnot : (i + 1) % V ∉ g.adj i := by
    rw [hg, adj_mk_map, if_pos hiV]
    unfold pathAdj
    simp only [lt_irrefl, if_false, if_true]
    by_cases h0 : i = 0
    · simp [h0]
    · rw [if_neg h0]
      simp only [List.mem_singleton]
      by_cases h1 : i + 1 < V
      · rw [Nat.mod_eq_of_lt h1]; omega
      · have : i + 1 = V := by omega
        rw [this, Nat.mod_self]; omega
  obtain ⟨g3, k1, k2, k3⟩ := g.addEdge_good p1 i ((i + 1) % V) (by rw [p2]; exact hiV)
    (by rw [p2]; exact hvV) hne hnot
  rw [hadd] at k1
  injection k1 with k1
  subst k1
  refine ⟨k2, by rw [k3, p2], ?_⟩
  intro h1
  have := addEdge_path V i h1
  rw [← hg, hadd] at this
  injection this

/-- C19. For `V ≥ 3` the graph is simple, symmetric and has all labels in
`[0, V)` at every point of generation: after each of the `k ≤ V` iterations of
step 1 on `Graph(V)`; after every `addEdge(u, v)` that the guard
`u != v && !edgeExists(u, v)` of step 2 lets through on such a graph; hence at
the end of every run of step 2 started on such a graph, and at the end of
generation whenever it finishes. -/
theorem generation_keeps_graph_simple (V : Nat) (hV : 3 ≤ V) :
    (∀ k ≤ V, ∃ gk, Graph.cycleLoop k 0 (Graph.new V) = .ok gk ∧ gk.Good ∧ gk.V = V) ∧
    (∀ (g : Graph) (u v : Nat), g.Good → g.V = V → u < V → v < V → u ≠ v →
      g.edgeExists u v = .ok false → ∃ g1, g.addEdge u v = .ok g1 ∧ g1.Good ∧ g1.V = V) ∧
    (∀ (numEdges : Int) (draws : List Nat) (ec : Nat) (g g1 : Graph), g.Good → g.V = V →
      Graph.randomLoop numEdges draws ec g = .ok g1 → g1.Good ∧ g1.V = V) ∧
    (∀ (numEdges : Int) (draws : List Nat) (g1 : Graph),
      (Graph.new V).generateRandomEvenDegreeGraph numEdges draws = .ok g1 →
      g1.Good ∧ g1.V = V) := by
  have hguard : ∀ (g : Graph) (u v : Nat), g.Good → g.V = V → u < V → v < V → u ≠ v →
      g.edgeExists u v = .ok false → ∃ g1, g.addEdge u v = .ok g1 ∧ g1.Good ∧ g1.V = V := by
    intro g u v hg hgV hu hv hne hex
    obtain ⟨g1, h1, h2, h3⟩ := g.addEdge_good hg u v (by rw [hgV]; exact hu)
      (by rw [hgV]; exact hv) hne (g.edgeExists_false u v hex)
    exact ⟨g1, h1, h2, by rw [h3, hgV]⟩
  have hrandom : ∀ (numEdges : Int) (draws : List Nat) (ec : Nat) (g g1 : Graph), g.Good →
      g.V = V → Graph.randomLoop numEdges draws ec g = .ok g1 → g1.Good ∧ g1.V = V := by
    intro numEdges draws ec g g1 hg hgV hr
    obtain ⟨_, k, _⟩ := randomLoop_invariant numEdges (fun _ g => g.Good ∧ g.V = V)
      (by
        intro ec g r1 r2 g2 hP hne hex hadd _
        obtain ⟨p1, p2⟩ := hP
        rw [p2] at hne hex hadd
        obtain ⟨g3, k1, k2, k3⟩ := hguard g (r1 % V) (r2 % V) p1 p2
          (Nat.mod_lt _ (by omega)) (Nat.mod_lt _ (by omega)) hne hex
        rw [hadd] at k1
        injection k1 with k1
        subst k1
        exact ⟨k2, k3⟩)
      draws ec g g1 ⟨hg, hgV⟩ hr
    exact k
  have hcycle : ∀ k ≤ V, ∃ gk, Graph.cycleLoop k 0 (Graph.new V) = .ok gk ∧ gk.Good ∧
      gk.V = V := by
    intro k hk
    have hex : ∃ gk, Graph.cycleLoop k 0 (Graph.new V) = .ok gk := by
      rw [new_eq_map]
      by_cases hkV : k < V
      · exact ⟨_, cycleLoop_first_iterations V k 0 (by omega)⟩
      · obtain ⟨n, hn⟩ : ∃ n, k = n + 1 := ⟨k - 1, by omega⟩
        rw [hn]
        exact ⟨_, cycleLoop_path V hV n 0 (by omega)⟩
    obtain ⟨gk, hgk⟩ := hex
    have := cycleLoop_invariant
      (fun i g => g.Good ∧ g.V = V ∧ (i < V → g = Graph.mk V ((List.range V).map (pathAdj i))))
      (fun i g g2 hP hadd => cycleLoop_step_good V hV i g g2 hP hadd)
      k 0 (Graph.new V) gk ⟨new_good V, rfl, fun _ => new_eq_map V⟩ hgk
    exact ⟨gk, hgk, this.1, this.2.1⟩
  refine ⟨hcycle, hguard, hrandom, ?_⟩
  intro numEdges draws g1 h
  obtain ⟨gc, hc, hr⟩ := generate_split _ _ _ _ h
  obtain ⟨gk, h1, h2, h3⟩ := hcycle V (le_refl _)
  have hc2 : Graph.cycleLoop V 0 (Graph.new V) = .ok gc := hc
  rw [h1] at hc2
  injection hc2 with hc2
  subst hc2
  exact hrandom numEdges draws _ gk g1 h2 h3 hr

/-- C19, at `V = 4`. -/
theorem generation_keeps_graph_simple_witness :
    (∀ k ≤ 4, ∃ gk, Graph.cycleLoop k 0 (Graph.new 4) = .ok gk ∧ gk.Good ∧ gk.V = 4) ∧
    (∀ (g : Graph) (u v : Nat), g.Good → g.V = 4 → u < 4 → v < 4 → u ≠ v →
      g.edgeExists u v = .ok false → ∃ g1, g.addEdge u v = .ok g1 ∧ g1.Good ∧ g1.V = 4) ∧
    (∀ (numEdges : Int) (draws : List Nat) (ec : Nat) (g g1 : Graph), g.Good → g.V = 4 →
      Graph.randomLoop numEdges draws ec g = .ok g1 → g1.Good ∧ g1.V = 4) ∧
    (∀ (numEdges : Int) (draws : List Nat) (g1 : Graph),
      (Graph.new 4).generateRandomEvenDegreeGraph numEdges draws = .ok g1 →
      g1.Good ∧ g1.V = 4) :=
  generation_keeps_graph_simple 4 (by decide)

/-! ## The loop of `findEulerianCircuit` in general -/

theorem hierholzerStep_cases (s s1 : HState) (h : hierholzerStep s = .ok s1) :
    (∃ next t g1, s.g.adj s.currentVertex = next :: t ∧
      s.currentVertex < s.g.adjList.length ∧
      s.g.removeEdge s.currentVertex next = .ok g1 ∧
      s1 = { g := g1, currentPath := s.currentVertex :: s.currentPath,
             circuit := s.circuit, currentVertex := next }) ∨
    (∃ top rest, s.g.adj s.currentVertex = [] ∧
      s.currentVertex < s.g.adjList.length ∧ s.currentPath = top :: rest ∧
      s1 = { g := s.g, currentPath := rest, circuit := s.circuit ++ [s.currentVertex],
             currentVertex := top }) := by
  unfold hierholzerStep at h
  split at h
  · cases h
  · rename_i next t hget
    have hlt : s.currentVertex < s.g.adjList.length := (List.getElem?_eq_some.1 hget).1
    have hadj : s.g.adj s.currentVertex = next :: t := by
      have := s.g.getElem?_eq_adj hlt
      rw [hget] at this
      injection this with this
      exact this.symm
    split at h
    · cases h
    · rename_i g1 hrem
      injection h with h
      left
      exact ⟨next, t, g1, hadj, hlt, hrem, h.symm⟩
  · rename_i hget
    have hlt : s.currentVertex < s.g.adjList.length := (List.getElem?_eq_some.1 hget).1
    have hadj : s.g.adj s.currentVertex = [] := by
      have := s.g.getElem?_eq_adj hlt
      rw [hget] at this
      injection this with this
      exact this.symm
    split at h
    · cases h
    · rename_i top rest hp
      injection h with h
      right
      exact ⟨top, rest, hadj, hlt, hp, h.symm⟩

theorem hierholzerLoop_invariant (P : HState → Prop)
    (hstep : ∀ s s1, P s → s.currentPath ≠ [] → hierholzerStep s = .ok s1 → P s1) :
    ∀ fuel s s1, P s → hierholzerLoop fuel s = .ok s1 → P s1 ∧ s1.currentPath = [] := by
  intro fuel
  induction fuel with
  | zero =>
    intro s s1 _ h
    cases h
  | succ fuel ih =>
    intro s s1 hP h
    unfold hierholzerLoop at h
    cases hp : s.currentPath with
    | nil =>
      rw [hp] at h
      simp only [List.isEmpty_nil, if_true] at h
      injection h with h
      rw [← h]
      exact ⟨hP, hp⟩
    | cons top rest =>
      rw [hp] at h
      simp only [List.isEmpty_cons, Bool.false_eq_true, if_false] at h
      split at h
      · cases h
      · rename_i s2 hs2
        exact ih s2 s1 (hstep s s2 hP (by rw [hp]; simp) hs2) h

theorem Graph.findEulerianCircuit_circuit (fuel : Nat) (g g1 : Graph) (c : List Nat)
    (h : g.findEulerianCircuit fuel = .ok (.circuit c, g1)) :
    g.isConnected fuel = .ok true ∧ g.hasEvenDegree = .ok true ∧
    ∃ start s, g.firstNonEmpty g.V 0 = .ok start ∧
      hierholzerLoop fuel
        { g := g, currentPath := [start.getD 0], circuit := [],
          currentVertex := start.getD 0 } = .ok s ∧
      c = s.circuit ∧ g1 = s.g := by
  unfold Graph.findEulerianCircuit at h
  split at h
  · cases h
  · injection h with h
    injection h with h _
    cases h
  · rename_i hconn
    split at h
    · cases h
    · injection h with h
      injection h with h _
      cases h
    · rename_i heven
      split at h
      · cases h
      · rename_i start hstart
        simp only at h
        split at h
        · cases h
        · rename_i s hs
          injection h with h
          injection h with h3 h4
          injection h3 with h3
          exact ⟨hconn, heven, start, s, hstart, hs, h3.symm, h4.symm⟩

theorem consumes_step (g0 : Graph) (start : Nat) (s s1 : HState)
    (hP : s.Consumes g0 start) (hne : s.currentPath ≠ [])
    (h : hierholzerStep s = .ok s1) : s1.Consumes g0 start := by
  obtain ⟨pV, plen, p1, p2, p3, p4⟩ := hP
  rcases hierholzerStep_cases s s1 h with
    ⟨next, t, g1, hadj, hlt, hrem, rfl⟩ | ⟨top, rest, hadj, hlt, hp, rfl⟩
  · obtain ⟨_, hnl⟩ := Graph.removeEdge_ok_lt _ _ _ _ hrem
    obtain ⟨g2, k1, k2, k3, k4⟩ := s.g.removeEdge_spec hlt hnl
    rw [hrem] at k1
    injection k1 with k1
    subst k1
    have hsub : ∀ x y, y ∈ g1.adj x → y ∈ s.g.adj x := by
      intro x y hy
      rw [k4 x] at hy
      split at hy
      · rename_i hx
        rw [hx]
        exact (List.mem_filter.1 hy).1
      · split at hy
        · rename_i hx
          rw [hx]
          exact (List.mem_filter.1 hy).1
        · exact hy
    refine ⟨by rw [k2, pV], by rw [k3, plen], ?_, ?_, ?_, ?_⟩
    · intro x hx
      have h0 := p1 x hx
      cases hl : g1.adj x with
      | nil => rfl
      | cons y ys =>
        have : y ∈ s.g.adj x := hsub x y (by rw [hl]; exact List.mem_cons_self _ _)
        rw [h0] at this
        cases this
    · intro x y hy
      rcases p2 x y hy with hin | hin
      · by_cases hkeep : y ∈ g1.adj x
        · left; exact hkeep
        · right
          rw [k4 x] at hkeep
          show y ∈ next :: ((s.currentVertex :: s.currentPath) ++ s.circuit)
          split at hkeep
          · rename_i hx
            rw [hx] at hin
            have : y = next := by
              by_contra hyn
              exact hkeep (List.mem_filter.2 ⟨hin, by simpa using hyn⟩)
            rw [this]
            exact List.mem_cons_self _ _
          · split at hkeep
            · rename_i hx
              rw [hx] at hin
              have : y = s.currentVertex := by
                by_contra hyn
                exact hkeep (List.mem_filter.2 ⟨hin, by simpa using hyn⟩)
              rw [this]
              exact List.mem_cons_of_mem _ (List.mem_cons_self _ _)
            · exact absurd hin hkeep
      · right
        show y ∈ next :: ((s.currentVertex :: s.currentPath) ++ s.circuit)
        exact List.mem_cons_of_mem _ hin
    · intro x y hy
      exact p3 x y (hsub x y hy)
    · rcases p4 with ⟨pre, hpre⟩ | ⟨hemp, _, _⟩
      · left
        refine ⟨next :: pre, ?_⟩
        show next :: (s.currentVertex :: s.currentPath) = next :: pre ++ [start, start]
        rw [hpre]
        rfl
      · exact absurd hemp hne
  · refine ⟨pV, plen, ?_, ?_, p3, ?_⟩
    · intro x hx
      rcases List.mem_append.1 hx with hx | hx
      · exact p1 x hx
      · rw [List.mem_singleton] at hx
        rw [hx]
        exact hadj
    · intro x y hy
      rcases p2 x y hy with hin | hin
      · left; exact hin
      · right
        unfold HState.seen at hin ⊢
        rw [hp] at hin
        simp only [List.mem_cons, List.mem_append, List.mem_singleton] at hin ⊢
        tauto
    · rcases p4 with ⟨pre, hpre⟩ | ⟨hemp, _, _⟩
      · rw [hp] at hpre
        cases pre with
        | nil =>
          right
          injection hpre with h1 h2
          injection h2 with h2 h3
          refine ⟨h3, h2, ?_⟩
          show start ∈ s.circuit ++ [s.currentVertex]
          rw [h1]
          simp
        | cons p ps =>
          left
          injection hpre with h1 h2
          exact ⟨ps, h2⟩
      · exact absurd hemp hne

theorem consumes_initial (g0 : Graph) (start : Nat) :
    HState.Consumes g0 start
      { g := g0, currentPath := [start], circuit := [], currentVertex := start } := by
  refine ⟨rfl, rfl, ?_, ?_, ?_, ?_⟩
  · intro x hx
    cases hx
  · intro x y hy
    left
    exact hy
  · intro x y hy
    exact hy
  · left
    exact ⟨[], rfl⟩

theorem consumes_final (g0 : Graph) (start : Nat) (s : HState) (hP : s.Consumes g0 start)
    (hemp : s.currentPath = []) :
    (∀ x, g0.Reach start x → s.g.adj x = []) ∧
    (∀ x, g0.adj x = [] → s.g.adj x = []) := by
  obtain ⟨_, _, p1, p2, p3, p4⟩ := hP
  have hstart : s.currentVertex = start ∧ start ∈ s.circuit := by
    rcases p4 with ⟨pre, hpre⟩ | ⟨_, h2, h3⟩
    · rw [hemp] at hpre
      have := congrArg List.length hpre
      simp at this
    · exact ⟨h2, h3⟩
  have hclosed : ∀ x, g0.Reach start x → x ∈ s.circuit := by
    intro x hx
    induction hx with
    | refl => exact hstart.2
    | @tail y z _ hstep ih =>
      rcases p2 y z hstep with hin | hin
      · rw [p1 y ih] at hin
        cases hin
      · unfold HState.seen at hin
        rw [hemp, hstart.1] at hin
        simp only [List.nil_append, List.mem_cons] at hin
        rcases hin with hin | hin
        · rw [hin]
          exact hstart.2
        · exact hin
  refine ⟨fun x hx => p1 x (hclosed x hx), ?_⟩
  intro x hx
  cases hl : s.g.adj x with
  | nil => rfl
  | cons y ys =>
    have : y ∈ g0.adj x := p3 x y (by rw [hl]; exact List.mem_cons_self _ _)
    rw [hx] at this
    cases this

/-- When the connectivity check has passed, the loop of `findEulerianCircuit`
ends with every list empty. -/
theorem Graph.loop_empties (g : Graph) (hwf : g.WF) (fuel : Nat) (hfuel : g.V ≤ fuel)
    (hconn : g.isConnected fuel = .ok true) (start : Option Nat)
    (hstart : g.firstNonEmpty g.V 0 = .ok start) (s : HState)
    (hs : hierholzerLoop fuel
      { g := g, currentPath := [start.getD 0], circuit := [],
        currentVertex := start.getD 0 } = .ok s) :
    s.g = Graph.new g.V := by
  obtain ⟨hC, hemp⟩ := hierholzerLoop_invariant (HState.Consumes g (start.getD 0))
    (fun s s1 hP hne h => consumes_step g (start.getD 0) s s1 hP hne h) fuel _ s
    (consumes_initial g (start.getD 0)) hs
  obtain ⟨hreach, hnil⟩ := consumes_final g (start.getD 0) s hC hemp
  have hall : ∀ x, s.g.adj x = [] := by
    intro x
    by_cases hx : g.adj x = []
    · exact hnil x hx
    · have hxV := g.lt_of_adj_ne_nil hwf hx
      rcases g.isConnected_spec hwf fuel hfuel with
        ⟨_, h2, _⟩ | ⟨nz, _, b, h1, _, _, _, _, _, h7, h8⟩
      · exact absurd (h2 x hxV) hx
      · rw [hconn] at h7
        injection h7 with h7
        rw [hstart] at h1
        injection h1 with h1
        subst h1
        exact hreach x ((h8.1 h7.symm) x hxV hx)
  apply Graph.ext_adj
  · exact hC.1
  · rw [hC.2.1, hwf.1]
    simp [Graph.new]
  · intro w
    rw [hall w, adj_new]

/-- C14. Whenever `findEulerianCircuit` passes both checks and reports a
sequence, on a well-formed graph and with a sufficient budget, it leaves the
graph with `V` empty lists: every edge has been removed. Symmetry of the lists
is not needed. -/
theorem circuit_consumes_all_edges (g : Graph) (hwf : g.WF) (fuel : Nat) (hfuel : g.V ≤ fuel)
    (c : List Nat) (g1 : Graph) (h : g.findEulerianCircuit fuel = .ok (.circuit c, g1)) :
    g1 = Graph.new g.V ∧ g1.totalDegree = 0 ∧ ∀ i, g1.adj i = [] := by
  obtain ⟨hconn, _, start, s, hstart, hs, _, hg1⟩ := g.findEulerianCircuit_circuit fuel g1 c h
  have := g.loop_empties hwf fuel hfuel hconn start hstart s hs
  rw [← hg1] at this
  rw [this]
  exact ⟨rfl, Graph.totalDegree_eq_zero _ (adj_new g.V), adj_new g.V⟩

/-- C14, at the triangle. -/
theorem circuit_consumes_all_edges_witness :
    Graph.new 3 = Graph.new triangle.V ∧ (Graph.new 3).totalDegree = 0 ∧
    ∀ i, (Graph.new 3).adj i = [] :=
  circuit_consumes_all_edges triangle (by decide) 17 (by decide) [0, 2, 1, 0] (Graph.new 3) rfl

/-! ## Hierholzer's loop on a simple graph -/

theorem pendingEdge_cons_cons (a b : Nat) (t : List Nat) (x : Nat) :
    pendingEdge (a :: b :: t) x = pendingEdge (b :: t) x := by
  unfold pendingEdge
  rw [List.getLast?_cons_cons]

theorem circuitEdges_append_singleton :
    ∀ (c : List Nat) (x : Nat), circuitEdges (c ++ [x]) = circuitEdges c ++ pendingEdge c x := by
  intro c
  induction c with
  | nil =>
    intro x
    rfl
  | cons a t ih =>
    intro x
    cases t with
    | nil => rfl
    | cons b t2 =>
      have h1 := ih x
      rw [pendingEdge_cons_cons]
      show s(a, b) :: circuitEdges ((b :: t2) ++ [x]) = _
      rw [h1]
      rfl

theorem pendingEdge_append_singleton (c : List Nat) (x a : Nat) :
    pendingEdge (c ++ [x]) a = [s(x, a)] := by
  unfold pendingEdge
  rw [List.getLast?_concat]

theorem length_filter_ne (l : List Nat) (n : Nat) :
    (l.filter (fun x => x != n)).length + l.count n = l.length := by
  induction l with
  | nil => rfl
  | cons a t ih =>
    by_cases h : a = n
    · subst h
      simp only [List.filter_cons, bne_self_eq_false, Bool.false_eq_true, if_false,
        List.count_cons_self, List.length_cons]
      omega
    · have h2 : (a != n) = true := by simpa using h
      rw [List.filter_cons, if_pos h2, List.count_cons_of_ne (Ne.symm h)]
      simp only [List.length_cons]
      omega

theorem Graph.removeEdge_totalDegree (g g1 : Graph) (u v : Nat)
    (h : g.removeEdge u v = .ok g1) (hne : u ≠ v) (hc1 : (g.adj u).count v = 1)
    (hc2 : (g.adj v).count u = 1) : g1.totalDegree + 2 = g.totalDegree := by
  obtain ⟨hu, hv⟩ := g.removeEdge_ok_lt g1 u v h
  unfold Graph.removeEdge at h
  rw [if_pos hu] at h
  simp only [List.length_modify] at h
  rw [if_pos hv] at h
  injection h with h
  rw [← h]
  unfold Graph.totalDegree
  simp only []
  have h1 := sum_length_modify (fun l => l.filter (fun x => x != v)) g.adjList u hu
  have h2 := sum_length_modify (fun l => l.filter (fun x => x != u))
    (List.modify (fun l => l.filter (fun x => x != v)) u g.adjList) v (by simpa using hv)
  rw [getD_modify, if_neg (by intro hh; exact hne hh.1)] at h2
  have h3 := length_filter_ne (g.adj u) v
  have h4 := length_filter_ne (g.adj v) u
  unfold Graph.adj at h3 h4 hc1 hc2
  simp only [] at h1 h2
  omega

/-- Removing the edge at the front of the list of `u` in a simple symmetric
graph: the graph stays simple and symmetric and loses exactly that edge. -/
theorem Graph.removeEdge_good (g : Graph) (hg : g.Good) (u v : Nat) (t : List Nat)
    (hu : u < g.V) (hadj : g.adj u = v :: t) :
    ∃ g1, g.removeEdge u v = .ok g1 ∧ g1.Good ∧ u ≠ v ∧
      (∀ a b, (g1.adj a).count b + (if s(v, u) = s(a, b) then 1 else 0) = (g.adj a).count b) ∧
      (∀ x, (g1.adj x).length + (if x = u then 1 else 0) + (if x = v then 1 else 0) =
        (g.adj x).length) ∧
      g1.totalDegree + 2 = g.totalDegree := by
  obtain ⟨hwf, hsym, hsimple⟩ := hg
  have hmem : v ∈ g.adj u := by rw [hadj]; exact List.mem_cons_self _ _
  have hv : v < g.V := hwf.lt_of_mem_adj hmem
  obtain ⟨hnd, hself⟩ := hsimple u hu
  have hne : u ≠ v := by
    intro h
    rw [← h] at hmem
    exact hself hmem
  have hc1 : (g.adj u).count v = 1 := List.count_eq_one_of_mem hnd hmem
  have hc2 : (g.adj v).count u = 1 := by
    rw [← hsym u hu v hv]
    exact hc1
  obtain ⟨g1, h1, h2, h3, h4⟩ := g.removeEdge_symmetric hwf.1 hsym hu hv
  obtain ⟨g2, k1, _, k3, _⟩ := g.removeEdge_front hwf hu hadj
  rw [h1] at k1
  injection k1 with k1
  subst k1
  obtain ⟨g3, j1, _, _, j4⟩ := g.removeEdge_spec (by rw [hwf.1]; exact hu : u < g.adjList.length)
    (by rw [hwf.1]; exact hv : v < g.adjList.length)
  rw [h1] at j1
  injection j1 with j1
  subst j1
  refine ⟨g1, h1, ⟨k3, h4, ?_⟩, hne, ?_, ?_, g.removeEdge_totalDegree g1 u v h1 hne hc1 hc2⟩
  · intro w hw
    rw [h2] at hw
    obtain ⟨hnd1, hself1⟩ := hsimple w hw
    rw [j4 w]
    split
    · rename_i hwu
      rw [← hwu]
      exact ⟨hnd1.filter _, fun hm => hself1 (List.mem_filter.1 hm).1⟩
    · split
      · rename_i hwv
        rw [← hwv]
        exact ⟨hnd1.filter _, fun hm => hself1 (List.mem_filter.1 hm).1⟩
      · exact ⟨hnd1, hself1⟩
  · intro a b
    rw [j4 a]
    by_cases hau : a = u
    · subst hau
      rw [if_pos rfl, count_filter_ne]
      by_cases hbv : b = v
      · subst hbv
        rw [if_pos rfl, if_pos Sym2.eq_swap, hc1]
      · rw [if_neg hbv, if_neg]
        · rfl
        · intro hs
          rw [Sym2.eq_iff] at hs
          rcases hs with ⟨h5, _⟩ | ⟨h5, _⟩
          · exact hne h5.symm
          · exact hbv h5.symm
    · rw [if_neg hau]
      by_cases hav : a = v
      · subst hav
        rw [if_pos rfl, count_filter_ne]
        by_cases hbu : b = u
        · subst hbu
          rw [if_pos rfl, if_pos rfl, hc2]
        · rw [if_neg hbu, if_neg]
          · rfl
          · intro hs
            rw [Sym2.eq_iff] at hs
            rcases hs with ⟨_, h5⟩ | ⟨_, h5⟩
            · exact hbu h5.symm
            · exact hau h5.symm
      · rw [if_neg hav, if_neg]
        · rfl
        · intro hs
          rw [Sym2.eq_iff] at hs
          rcases hs with ⟨h5, _⟩ | ⟨_, h5⟩
          · exact hav h5.symm
          · exact hau h5.symm
  · intro x
    rw [j4 x]
    have l1 := length_filter_ne (g.adj u) v
    have l2 := length_filter_ne (g.adj v) u
    by_cases hxu : x = u
    · subst hxu
      rw [if_pos rfl, if_pos rfl, if_neg hne]
      omega
    · rw [if_neg hxu, if_neg hxu]
      by_cases hxv : x = v
      · subst hxv
        rw [if_pos rfl, if_pos rfl]
        omega
      · rw [if_neg hxv, if_neg hxv]
        rfl

theorem head?_append_singleton (c : List Nat) (x start : Nat)
    (h0 : c = [] → x = start) (h1 : c ≠ [] → c.head? = some start) :
    (c ++ [x]).head? = some start := by
  cases c with
  | nil =>
    rw [h0 rfl]
    rfl
  | cons a t =>
    have := h1 (by simp)
    simpa using this

theorem trail_step (g0 : Graph) (start : Nat) (s s1 : HState)
    (hP : s.Trail g0 start) (hne : s.currentPath ≠ [])
    (h : hierholzerStep s = .ok s1) : s1.Trail g0 start := by
  rcases hP with ⟨_, a, hgood, hcount, hpar, hc0, hc1, hlen, pre, hpre⟩ | ⟨hemp, _⟩
  swap
  · exact absurd hemp hne
  rcases hierholzerStep_cases s s1 h with
    ⟨next, t, g1, hadj, hlt, hrem, rfl⟩ | ⟨top, rest, hadj, hlt, hp, rfl⟩
  · -- the walk takes the edge to `next`
    have hcurV : s.currentVertex < s.g.V := by rw [← hgood.1.1]; exact hlt
    obtain ⟨g2, k1, k2, k3, k4, k5, k6⟩ :=
      s.g.removeEdge_good hgood s.currentVertex next t hcurV hadj
    rw [hrem] at k1
    injection k1 with k1
    subst k1
    left
    refine ⟨by simp, a, k2, ?_, ?_, hc0, hc1, ?_, next :: pre, ?_⟩
    · intro u v
      have h1 := hcount u v
      have h2 := k4 u v
      have hchain : circuitEdges (HState.chain
          { g := g1, currentPath := s.currentVertex :: s.currentPath, circuit := s.circuit,
            currentVertex := next }) =
          s(next, s.currentVertex) :: circuitEdges s.chain := by
        unfold HState.chain
        simp only []
        rw [List.dropLast_cons_of_ne_nil hne]
        rfl
      rw [hchain, List.count_cons]
      simp only [beq_iff_eq]
      show (circuitEdges s.circuit).count s(u, v) + (pendingEdge s.circuit a).count s(u, v) +
        ((circuitEdges s.chain).count s(u, v) +
          if s(next, s.currentVertex) = s(u, v) then 1 else 0) + (g1.adj u).count v = _
      omega
    · intro x
      have h1 := hpar x
      have h2 := k5 x
      show ((g1.adj x).length + (if x = next then 1 else 0) + (if x = a then 1 else 0)) % 2 = 0
      have hne2 : s.currentVertex ≠ next := k3
      by_cases hx1 : x = s.currentVertex
      · have hx2 : ¬ (x = next) := by rw [hx1]; exact hne2
        rw [if_pos hx1, if_neg hx2] at h2
        rw [if_pos hx1] at h1
        rw [if_neg hx2]
        omega
      · rw [if_neg hx1] at h1 h2
        omega
    · have hchainlen : (HState.chain
          { g := g1, currentPath := s.currentVertex :: s.currentPath, circuit := s.circuit,
            currentVertex := next }).length = s.chain.length + 1 := by
        unfold HState.chain
        simp only []
        rw [List.dropLast_cons_of_ne_nil hne]
        rfl
      rw [hchainlen]
      show 2 * (s.circuit.length + (s.chain.length + 1)) + g1.totalDegree = _
      omega
    · show next :: (s.currentVertex :: s.currentPath) = next :: pre ++ [start, start]
      rw [hpre]
      rfl
  · -- the current vertex has no edge left
    have hcura : s.currentVertex = a := by
      have h1 := hpar s.currentVertex
      rw [hadj, if_pos rfl] at h1
      by_contra hca
      rw [if_neg hca] at h1
      simp at h1
    have hhead : (s.circuit ++ [s.currentVertex]).head? = some start :=
      head?_append_singleton s.circuit s.currentVertex start
        (fun h0 => by rw [hcura]; exact hc0 h0) hc1
    have hedges : circuitEdges (s.circuit ++ [s.currentVertex]) =
        circuitEdges s.circuit ++ pendingEdge s.circuit a := by
      rw [circuitEdges_append_singleton, hcura]
    rw [hp] at hpre
    cases rest with
    | nil =>
      right
      have hchain : s.chain = [s.currentVertex] := by
        unfold HState.chain
        rw [hp]
        rfl
      refine ⟨rfl, hhead, ?_, ?_, ?_⟩
      · show (s.circuit ++ [s.currentVertex]).getLast? = some start
        rw [List.getLast?_concat]
        cases pre with
        | nil =>
          injection hpre with h1 _
          rw [h1]
        | cons p ps =>
          have := congrArg List.length hpre
          simp at this
      · intro u v
        have h1 := hcount u v
        rw [hchain] at h1
        show (circuitEdges (s.circuit ++ [s.currentVertex])).count s(u, v) +
          (s.g.adj u).count v = _
        rw [hedges, List.count_append]
        have h0 : (circuitEdges [s.currentVertex]).count s(u, v) = 0 := rfl
        omega
      · rw [hchain] at hlen
        show 2 * (s.circuit ++ [s.currentVertex]).length + s.g.totalDegree = _
        simp only [List.length_append, List.length_cons, List.length_nil] at hlen ⊢
        omega
    | cons r rs =>
      left
      have hchain : s.chain = s.currentVertex :: top :: (r :: rs).dropLast := by
        unfold HState.chain
        rw [hp, List.dropLast_cons_of_ne_nil (by simp)]
      refine ⟨by simp, top, hgood, ?_, ?_, ?_, fun _ => hhead, ?_, ?_⟩
      · intro u v
        have h1 := hcount u v
        rw [hchain] at h1
        have h2 : circuitEdges (s.currentVertex :: top :: (r :: rs).dropLast) =
            s(s.currentVertex, top) :: circuitEdges (top :: (r :: rs).dropLast) := rfl
        rw [h2, List.count_cons] at h1
        show (circuitEdges (s.circuit ++ [s.currentVertex])).count s(u, v) +
          (pendingEdge (s.circuit ++ [s.currentVertex]) top).count s(u, v) +
          (circuitEdges (top :: (r :: rs).dropLast)).count s(u, v) + (s.g.adj u).count v = _
        rw [hedges, List.count_append, pendingEdge_append_singleton, List.count_singleton]
        omega
      · intro x
        have h1 := hpar x
        rw [← hcura] at h1
        show ((s.g.adj x).length + (if x = top then 1 else 0) + (if x = top then 1 else 0)) % 2 = 0
        by_cases hx1 : x = s.currentVertex
        · rw [if_pos hx1] at h1
          by_cases hx2 : x = top
          · rw [if_pos hx2]; omega
          · rw [if_neg hx2]; omega
        · rw [if_neg hx1] at h1
          by_cases hx2 : x = top
          · rw [if_pos hx2]; omega
          · rw [if_neg hx2]; omega
      · intro h0
        exact absurd h0 (by simp)
      · rw [hchain] at hlen
        show 2 * ((s.circuit ++ [s.currentVertex]).length +
          (top :: (r :: rs).dropLast).length) + s.g.totalDegree = _
        simp only [List.length_append, List.length_cons, List.length_nil] at hlen ⊢
        omega
      · cases pre with
        | nil =>
          have := congrArg List.length hpre
          simp at this
        | cons p ps =>
          injection hpre with _ h2
          exact ⟨ps, h2⟩

theorem trail_initial (g : Graph) (hgood : g.Good) (heven : g.EvenDegrees) (start : Nat) :
    HState.Trail g start
      { g := g, currentPath := [start], circuit := [], currentVertex := start } := by
  left
  refine ⟨by simp, start, hgood, ?_, ?_, fun _ => rfl, fun h => absurd rfl h, ?_, [], rfl⟩
  · intro u v
    show (circuitEdges []).count s(u, v) + (pendingEdge [] start).count s(u, v) +
      (circuitEdges [start]).count s(u, v) + (g.adj u).count v = _
    have h1 : (circuitEdges []).count s(u, v) = 0 := rfl
    have h2 : (pendingEdge [] start).count s(u, v) = 0 := rfl
    have h3 : (circuitEdges [start]).count s(u, v) = 0 := rfl
    omega
  · intro x
    show ((g.adj x).length + (if x = start then 1 else 0) + (if x = start then 1 else 0)) % 2 = 0
    have hx : (g.adj x).length % 2 = 0 := by
      by_cases hxV : x < g.V
      · exact heven x hxV
      · rw [g.adj_eq_nil_of_le (by rw [hgood.1.1]; omega)]
        rfl
    by_cases hxs : x = start
    · rw [if_pos hxs]; omega
    · rw [if_neg hxs]; omega
  · show 2 * (([] : List Nat).length + [start].length) + g.totalDegree = _
    simp only [List.length_nil, List.length_cons]
    omega

/-- C17. On a simple graph (well formed, symmetric, no self-loop, no parallel
edge) with `V > 0`, all degrees even and all vertices of non-zero degree joined,
`findEulerianCircuit` reports a sequence `c` and leaves no edge. `c` has
`E + 1` entries; it begins and ends at the vertex where the loop starts, which
is the lowest-numbered vertex of non-zero degree (vertex `0` when there is no
edge); every consecutive pair of `c` is an edge of the graph; and every pair
`u, v` occurs as a consecutive pair of `c`, in one order or the other, as many
times as `v` occurs in the list of `u`: once for an edge, never otherwise. -/
theorem simple_graph_euler_circuit (g : Graph) (hgood : g.Good) (hV : 0 < g.V)
    (heven : g.EvenDegrees)
    (hconn : ∀ a b, g.adj a ≠ [] → g.adj b ≠ [] → g.Reach a b)
    (fuel : Nat) (hfuel : g.fuelBound ≤ fuel) :
    ∃ c start, g.firstNonEmpty g.V 0 = .ok start ∧
      (∀ nz, start = some nz → nz < g.V ∧ g.adj nz ≠ [] ∧ ∀ j < nz, g.adj j = []) ∧
      g.findEulerianCircuit fuel = .ok (.circuit c, Graph.new g.V) ∧
      c.length = g.numEdges + 1 ∧
      c.head? = some (start.getD 0) ∧ c.getLast? = some (start.getD 0) ∧
      (∀ u v, s(u, v) ∈ circuitEdges c → v ∈ g.adj u) ∧
      (∀ u v, (circuitEdges c).count s(u, v) = (g.adj u).count v) ∧
      (∀ u v, (circuitEdges c).count s(u, v) ≤ 1) := by
  have hwf := hgood.1
  have hfuelV : g.V ≤ fuel := by unfold Graph.fuelBound at hfuel; omega
  -- the two checks pass
  have hconnected : g.isConnected fuel = .ok true := by
    rcases g.isConnected_spec hwf fuel hfuelV with
      ⟨_, _, h3⟩ | ⟨nz, _, b, _, _, h3, _, _, _, h7, h8⟩
    · exact h3
    · have hb : b = true := h8.2 (fun j _ hj => hconn nz j h3 hj)
      rw [h7, hb]
  have hevenOk : g.hasEvenDegree = .ok true := by
    obtain ⟨b, hb1, hb2⟩ := g.hasEvenDegree_spec hwf
    rw [hb1, hb2.2 heven]
  -- the start vertex
  have hstart : ∃ start, g.firstNonEmpty g.V 0 = .ok start ∧ start.getD 0 < g.V ∧
      (∀ nz, start = some nz → nz < g.V ∧ g.adj nz ≠ [] ∧ ∀ j < nz, g.adj j = []) := by
    rcases g.firstNonEmpty_spec g.V 0 (by rw [hwf.1]; omega) with
      ⟨h1, _⟩ | ⟨k, h1, _, h3, h4, h5⟩
    · refine ⟨none, h1, hV, ?_⟩
      intro nz hnz
      cases hnz
    · refine ⟨some k, h1, by simpa using h3, ?_⟩
      intro nz hnz
      injection hnz with hnz
      subst hnz
      exact ⟨by omega, h4, fun j hj => h5 j (Nat.zero_le _) hj⟩
  obtain ⟨start, hs1, hs2, hs3⟩ := hstart
  -- the loop returns
  obtain ⟨s1, hloop, _, _, _⟩ := hierholzerLoop_terminates fuel
    { g := g, currentPath := [start.getD 0], circuit := [], currentVertex := start.getD 0 }
    ⟨hwf, hs2, by simpa using hs2⟩
    (by
      unfold Graph.fuelBound at hfuel
      simp only [HState.measure, List.length_singleton]
      omega)
  have hg1 : s1.g = Graph.new g.V :=
    g.loop_empties hwf fuel hfuelV hconnected start hs1 s1 hloop
  have hfind : g.findEulerianCircuit fuel = .ok (.circuit s1.circuit, Graph.new g.V) := by
    unfold Graph.findEulerianCircuit
    rw [hconnected]
    simp only [hevenOk, hs1, hloop, hg1]
  -- what the loop has walked
  obtain ⟨htrail, hemp⟩ := hierholzerLoop_invariant (HState.Trail g (start.getD 0))
    (fun s s2 hP hne h => trail_step g (start.getD 0) s s2 hP hne h) fuel _ s1
    (trail_initial g hgood heven (start.getD 0)) hloop
  rcases htrail with ⟨hne, _⟩ | ⟨_, hhead, hlast, hcount, hlen⟩
  · exact absurd hemp hne
  have hcount2 : ∀ u v, (circuitEdges s1.circuit).count s(u, v) = (g.adj u).count v := by
    intro u v
    have := hcount u v
    rw [hg1, adj_new] at this
    simpa using this
  refine ⟨s1.circuit, start, hs1, hs3, hfind, ?_, hhead, hlast, ?_, hcount2, ?_⟩
  · rw [hg1, Graph.totalDegree_eq_zero _ (adj_new g.V)] at hlen
    unfold Graph.numEdges
    omega
  · intro u v hmem
    have hpos : 0 < (circuitEdges s1.circuit).count s(u, v) := List.count_pos_iff.2 hmem
    rw [hcount2] at hpos
    exact List.count_pos_iff.1 hpos
  · intro u v
    rw [hcount2]
    by_cases huV : u < g.V
    · exact List.nodup_iff_count_le_one.1 (hgood.2.2 u huV).1 v
    · rw [g.adj_eq_nil_of_le (by rw [hwf.1]; omega)]
      simp

/-- C17, at the triangle `0-1, 1-2, 2-0`. -/
theorem simple_graph_euler_circuit_witness :
    ∃ c start, triangle.firstNonEmpty triangle.V 0 = .ok start ∧
      (∀ nz, start = some nz →
        nz < triangle.V ∧ triangle.adj nz ≠ [] ∧ ∀ j < nz, triangle.adj j = []) ∧
      triangle.findEulerianCircuit 17 = .ok (.circuit c, Graph.new triangle.V) ∧
      c.length = triangle.numEdges + 1 ∧
      c.head? = some (start.getD 0) ∧ c.getLast? = some (start.getD 0) ∧
      (∀ u v, s(u, v) ∈ circuitEdges c → v ∈ triangle.adj u) ∧
      (∀ u v, (circuitEdges c).count s(u, v) = (triangle.adj u).count v) ∧
      (∀ u v, (circuitEdges c).count s(u, v) ≤ 1) :=
  simple_graph_euler_circuit triangle (by decide) (by decide) (by decide) triangle_reach 17
    (by decide)

end Q1
